import Mathlib

/-!
Verification of the block-index / embeddings-cache / context-assembly core of
the kernel-mdx extension.  Each section embeds one component of the source
(TypeScript) as executable Lean definitions and proves the spec claims about
them.  JavaScript `Map`s are modelled as insertion-ordered association lists,
`Set`s as duplicate-free insertion-ordered lists, and text as `List Char`.
-/

set_option autoImplicit false

namespace KernelMdx

/-! ### Association-list model of JavaScript `Map` and `Set` -/

variable {α : Type}

/-- Lookup in an insertion-ordered association list (JS `Map.get`). -/
def alookup (m : List (String × α)) (k : String) : Option α :=
  match m with
  | [] => none
  | (k', v) :: rest => if k' = k then some v else alookup rest k

/-- JS `Map.set`: update the existing entry in place, else append at the end. -/
def mapSet (m : List (String × α)) (k : String) (v : α) : List (String × α) :=
  match m with
  | [] => [(k, v)]
  | (k', v') :: rest => if k' = k then (k, v) :: rest else (k', v') :: mapSet rest k v

/-- JS `Map.delete`: remove the entry with the given key. -/
def mapDelete (m : List (String × α)) (k : String) : List (String × α) :=
  m.filter (fun e => e.1 ≠ k)

/-- Update the value stored under an existing key, preserving entry order. -/
def mapUpdate (m : List (String × α)) (k : String) (f : α → α) : List (String × α) :=
  m.map (fun e => if e.1 = k then (k, f e.2) else e)

/-- JS `Map.has`. -/
def hasKey (m : List (String × α)) (k : String) : Bool :=
  (alookup m k).isSome

/-- JS `Set.add`: append if not already present. -/
def setAdd (s : List String) (id : String) : List String :=
  if id ∈ s then s else s ++ [id]

/-- JS `Set.delete`. -/
def setRemove (s : List String) (id : String) : List String :=
  s.filter (fun x => x ≠ id)

@[simp] theorem alookup_nil (k : String) : alookup ([] : List (String × α)) k = none := rfl

@[simp] theorem alookup_cons (k' k : String) (v : α) (rest : List (String × α)) :
    alookup ((k', v) :: rest) k = if k' = k then some v else alookup rest k := rfl

theorem alookup_mapSet (m : List (String × α)) (k k' : String) (v : α) :
    alookup (mapSet m k v) k' = if k = k' then some v else alookup m k' := by
  induction m with
  | nil => by_cases h : k = k' <;> simp [mapSet, h]
  | cons e rest ih =>
    obtain ⟨ek, ev⟩ := e
    by_cases hek : ek = k
    · subst hek
      by_cases h : ek = k' <;> simp [mapSet, h]
    · by_cases h : ek = k'
      · subst h
        have : ¬ k = ek := fun hc => hek hc.symm
        simp [mapSet, hek, this]
      · simp [mapSet, hek, h, ih]

theorem alookup_filterKey (m : List (String × α)) (p : String × α → Bool) (k : String)
    (hp : ∀ v, p (k, v) = true) : alookup (m.filter p) k = alookup m k := by
  induction m with
  | nil => rfl
  | cons e rest ih =>
    obtain ⟨ek, ev⟩ := e
    by_cases hek : ek = k
    · subst hek
      simp [List.filter_cons, hp ev]
    · cases hpe : p (ek, ev) <;> simp [List.filter_cons, hpe, hek, ih]

theorem alookup_filterKey_none (m : List (String × α)) (p : String × α → Bool) (k : String)
    (hp : ∀ v, p (k, v) = false) : alookup (m.filter p) k = none := by
  induction m with
  | nil => rfl
  | cons e rest ih =>
    obtain ⟨ek, ev⟩ := e
    by_cases hek : ek = k
    · subst hek
      simp [List.filter_cons, hp ev, ih]
    · cases hpe : p (ek, ev) <;> simp [List.filter_cons, hpe, hek, ih]

theorem alookup_mapDelete (m : List (String × α)) (k k' : String) :
    alookup (mapDelete m k) k' = if k = k' then none else alookup m k' := by
  by_cases h : k = k'
  · subst h
    rw [if_pos rfl]
    exact alookup_filterKey_none m _ k (fun v => by simp)
  · rw [if_neg h]
    exact alookup_filterKey m _ k' (fun v => by
      simp only [ne_eq, decide_eq_true_eq]
      exact fun hc => h hc.symm)

theorem alookup_mapUpdate (m : List (String × α)) (k k' : String) (f : α → α) :
    alookup (mapUpdate m k f) k' =
      if k = k' then (alookup m k).map f else alookup m k' := by
  induction m with
  | nil => by_cases h : k = k' <;> simp [mapUpdate, h]
  | cons e rest ih =>
    obtain ⟨ek, ev⟩ := e
    simp only [mapUpdate, List.map_cons] at ih ⊢
    by_cases hek : ek = k
    · subst hek
      by_cases h : ek = k' <;> simp [h, ih]
    · by_cases h : ek = k'
      · subst h
        have hkk : ¬ k = ek := fun hc => hek hc.symm
        simp [hek, hkk]
      · simp [hek, h, ih]

theorem mem_setAdd (s : List String) (id x : String) :
    x ∈ setAdd s id ↔ x ∈ s ∨ x = id := by
  by_cases h : id ∈ s
  · simp only [setAdd, if_pos h]
    constructor
    · exact Or.inl
    · rintro (hx | rfl)
      · exact hx
      · exact h
  · simp [setAdd, if_neg h]

theorem mem_setRemove (s : List String) (id x : String) :
    x ∈ setRemove s id ↔ x ∈ s ∧ x ≠ id := by
  simp [setRemove]

/-- The file-index update performed by `set`/`setBlock`: create the entry for
the file when absent, then add the id to its set. -/
def addToIndex (fi : List (String × List String)) (f id : String) :
    List (String × List String) :=
  mapUpdate (if hasKey fi f then fi else fi ++ [(f, [])]) f (fun s => setAdd s id)

/-- The file-index update performed by `delete`/`deleteBlock`: remove the id
from the file's set, dropping the entry when it empties. -/
def removeFromIndex (fi : List (String × List String)) (f id : String) :
    List (String × List String) :=
  match alookup fi f with
  | none => fi
  | some s =>
      let s' := setRemove s id
      if s' = [] then mapDelete fi f else mapUpdate fi f (fun _ => s')

theorem alookup_append {α : Type} (m1 m2 : List (String × α)) (k : String) :
    alookup (m1 ++ m2) k =
      match alookup m1 k with
      | some v => some v
      | none => alookup m2 k := by
  induction m1 with
  | nil => simp
  | cons e rest ih =>
    obtain ⟨ek, ev⟩ := e
    by_cases h : ek = k <;> simp [h, ih]

theorem alookup_addToIndex_other (fi : List (String × List String)) (f id g : String)
    (hg : g ≠ f) : alookup (addToIndex fi f id) g = alookup fi g := by
  unfold addToIndex
  rw [alookup_mapUpdate, if_neg (fun hc => hg hc.symm)]
  split
  · rfl
  · rw [alookup_append]
    cases halook : alookup fi g with
    | none =>
      have hsingle : alookup [(f, ([] : List String))] g = none := by
        rw [alookup_cons, if_neg (fun hc => hg hc.symm)]
        rfl
      exact hsingle
    | some s => rfl

theorem mem_addToIndex (fi : List (String × List String)) (f id x : String) :
    x ∈ (alookup (addToIndex fi f id) f).getD [] ↔
      x ∈ (alookup fi f).getD [] ∨ x = id := by
  unfold addToIndex
  by_cases hk : hasKey fi f
  · rw [if_pos hk]
    cases halook : alookup fi f with
    | none =>
      exfalso
      unfold hasKey at hk
      rw [halook] at hk
      exact Bool.noConfusion hk
    | some s =>
      rw [alookup_mapUpdate, if_pos rfl, halook]
      simp [mem_setAdd]
  · rw [if_neg hk]
    have hnone : alookup fi f = none := by
      unfold hasKey at hk
      cases halook : alookup fi f with
      | none => rfl
      | some s =>
        rw [halook] at hk
        exact absurd rfl hk
    rw [alookup_mapUpdate, if_pos rfl, alookup_append, hnone]
    simp [hnone, mem_setAdd]

theorem alookup_removeFromIndex_other (fi : List (String × List String)) (f id g : String)
    (hg : g ≠ f) : alookup (removeFromIndex fi f id) g = alookup fi g := by
  unfold removeFromIndex
  cases halook : alookup fi f with
  | none => rfl
  | some s =>
    by_cases hemp : setRemove s id = []
    · simp only [hemp, if_pos]
      rw [alookup_mapDelete, if_neg (fun hc => hg hc.symm)]
    · simp only [hemp, if_neg, ite_false]
      rw [alookup_mapUpdate, if_neg (fun hc => hg hc.symm)]

theorem mem_removeFromIndex (fi : List (String × List String)) (f id x : String) :
    x ∈ (alookup (removeFromIndex fi f id) f).getD [] ↔
      x ∈ (alookup fi f).getD [] ∧ x ≠ id := by
  unfold removeFromIndex
  cases halook : alookup fi f with
  | none => simp [halook]
  | some s =>
    by_cases hemp : setRemove s id = []
    · simp only [hemp, if_pos]
      rw [alookup_mapDelete, if_pos rfl]
      have hall : ∀ y ∈ s, y = id := by
        intro y hy
        have := List.filter_eq_nil_iff.mp hemp y hy
        simpa using this
      simp only [Option.getD_none, List.not_mem_nil, false_iff, Option.getD_some]
      rintro ⟨hxs, hxne⟩
      exact hxne (hall x hxs)
    · simp only [hemp, if_neg, ite_false]
      rw [alookup_mapUpdate, if_pos rfl, halook]
      simp [mem_setRemove]

/-! ### Character classes used by the source regexes

The source uses the JavaScript regexes `/\]\s*@([a-zA-Z0-9_]+)/g` (block end)
and `/(?<!\]\s*)@([a-zA-Z0-9_]+)\b/g` (reference).  `isWsChar` models `\s` on
the whitespace characters that occur in text files; `isIdChar` models the
character class `[a-zA-Z0-9_]` (which coincides with `\w`, so the trailing
`\b` holds exactly at the end of a maximal run of id characters). -/

def isWsChar (c : Char) : Bool :=
  c == ' ' || c == '\t' || c == '\n' || c == '\r' || c == '\x0b' || c == '\x0c'

def isIdChar (c : Char) : Bool :=
  ('a' ≤ c && c ≤ 'z') || ('A' ≤ c && c ≤ 'Z') || ('0' ≤ c && c ≤ '9') || c == '_'

/-- Length of the maximal whitespace run at the head of the list. -/
def wsRun : List Char → Nat
  | [] => 0
  | c :: cs => if isWsChar c then wsRun cs + 1 else 0

/-- Length of the maximal identifier-character run at the head of the list. -/
def idRun : List Char → Nat
  | [] => 0
  | c :: cs => if isIdChar c then idRun cs + 1 else 0

/-- JS `String.prototype.trim`, on our whitespace class. -/
def trimChars (l : List Char) : List Char :=
  ((l.dropWhile isWsChar).reverse.dropWhile isWsChar).reverse

/-- The slice of `text` from position `i` (inclusive) to `j` (exclusive),
i.e. JS `text.substring(i, j)` for `i ≤ j`. -/
def seg (text : List Char) (i j : Nat) : List Char :=
  (text.take j).drop i

end KernelMdx

namespace BlockParser

open KernelMdx

/-!
### `BlockParser` (src/unnamed/part_007) and `DocumentParser` (src/unnamed/part_016)

Both revisions share the same extraction algorithm:
`findBlockMatches` scans the text with `/\]\s*@([a-zA-Z0-9_]+)/g`; for each
occurrence, `findBlockStart` walks backward from the `]` keeping a bracket
count (starting at 1, `+1` on `]`, `-1` on `[`) and returns the position
after the final decrement, or `-1` (here `none`) when the count never
reaches zero.
-/

/-- One loop iteration state of `findBlockStart`: `p` is the JS variable
`pos + 1` (so `p = 0` encodes `pos = -1`) and `count` is `bracketCount`. -/
def blockStartLoop (text : List Char) : Nat → Nat → Option Nat
  | p, 0 => some p
  | 0, _ + 1 => none
  | p + 1, count + 1 =>
      let c := text.getD p ' '
      blockStartLoop text p
        (if c = ']' then count + 2 else if c = '[' then count else count + 1)

/-- `findBlockStart(text, endPos)` from the source: backward bracket scan
starting just before the `]` at `endPos`, with initial count 1. -/
def findBlockStart (text : List Char) (endPos : Nat) : Option Nat :=
  blockStartLoop text endPos 1

/-- Attempt to match `/\]\s*@([a-zA-Z0-9_]+)/` anchored at position `i`:
returns the captured id and the total match length. -/
def matchEndAt (text : List Char) (i : Nat) : Option (String × Nat) :=
  match text.get? i with
  | some ']' =>
      let w := wsRun (text.drop (i + 1))
      let j := i + 1 + w
      match text.get? j with
      | some '@' =>
          let n := idRun (text.drop (j + 1))
          if n = 0 then none
          else some (String.mk ((text.drop (j + 1)).take n), 1 + w + 1 + n)
      | _ => none
  | _ => none

/-- The `regex.exec` loop: starting from `lastIndex = l`, the engine finds the
leftmost match at a position `≥ l` and then continues from the end of that
match.  `fuel` only bounds the number of iterations; with `fuel ≥ text.length + 1 - l`
it never runs out because every step advances `l` by at least one. -/
def scanEnds (text : List Char) : Nat → Nat → List (Nat × String × Nat)
  | 0, _ => []
  | fuel + 1, l =>
      if l < text.length then
        match matchEndAt text l with
        | some (id, len) => (l, id, len) :: scanEnds text fuel (l + len)
        | none => scanEnds text fuel (l + 1)
      else []

/-- All occurrences of the block-end pattern, as `(endPos, id, matchLength)`. -/
def findEndMatches (text : List Char) : List (Nat × String × Nat) :=
  scanEnds text (text.length + 1) 0

structure BlockMatch where
  id : String
  startPos : Nat
  endPos : Nat
  matchLength : Nat
  deriving DecidableEq, Repr

/-- `findBlockMatches` from the source: every end-pattern occurrence whose
backward scan resolves an opening `[` yields a match; occurrences with no
resolvable opening delimiter are discarded. -/
def findBlockMatches (text : List Char) : List BlockMatch :=
  (findEndMatches text).filterMap fun e =>
    (findBlockStart text e.1).map fun s =>
      { id := e.2.1, startPos := s, endPos := e.1, matchLength := e.2.2 }

/-- `getLineNumber`: `text.substring(0, position).split('\n').length - 1`. -/
def getLineNumber (text : List Char) (position : Nat) : Nat :=
  (text.take position).count '\n'

structure PBlock where
  id : String
  content : List Char
  file : String
  line : Nat
  deriving DecidableEq, Repr

/-- `createBlockFromMatch`: content is the substring strictly between the
matched `[` and the `]`, trimmed.  (The source never returns `null` here.) -/
def createBlockFromMatch (m : BlockMatch) (filePath : String) (text : List Char) : PBlock :=
  { id := m.id
    content := trimChars (seg text (m.startPos + 1) m.endPos)
    file := filePath
    line := getLineNumber text m.startPos }

/-! ### Correctness of the backward bracket scan -/

/-- The depth contribution of one character: `+1` for `]`, `-1` for `[`. -/
def chDelta (c : Char) : ℤ :=
  if c = ']' then 1 else if c = '[' then -1 else 0

/-- Number of closing minus number of opening delimiters in a character list. -/
def closeMinusOpen (l : List Char) : ℤ :=
  (l.count ']' : ℤ) - (l.count '[' : ℤ)

/-- `p` is the nearest enclosing unmatched opening delimiter for the closing
delimiter at `endPos`: `p` holds a `[`, the characters strictly between `p`
and `endPos` have equally many `]` and `[`, and no later `[` before `endPos`
has that property. -/
def nearestUnmatchedOpen (text : List Char) (endPos p : Nat) : Prop :=
  p < endPos ∧ text[p]? = some '[' ∧
    closeMinusOpen (seg text (p + 1) endPos) = 0 ∧
    ∀ q, p < q → q < endPos → text[q]? = some '[' →
      closeMinusOpen (seg text (q + 1) endPos) ≠ 0

theorem closeMinusOpen_nil : closeMinusOpen [] = 0 := by
  simp [closeMinusOpen]

theorem closeMinusOpen_append (a b : List Char) :
    closeMinusOpen (a ++ b) = closeMinusOpen a + closeMinusOpen b := by
  simp only [closeMinusOpen, List.count_append]
  push_cast
  ring

theorem closeMinusOpen_singleton (c : Char) : closeMinusOpen [c] = chDelta c := by
  by_cases h1 : c = ']' <;> by_cases h2 : c = '[' <;>
    simp_all [closeMinusOpen, chDelta, List.count_cons]

theorem closeMinusOpen_cons (c : Char) (l : List Char) :
    closeMinusOpen (c :: l) = chDelta c + closeMinusOpen l := by
  have : c :: l = [c] ++ l := rfl
  rw [this, closeMinusOpen_append, closeMinusOpen_singleton]

theorem chDelta_bounds (c : Char) : -1 ≤ chDelta c ∧ chDelta c ≤ 1 := by
  unfold chDelta
  split_ifs <;> omega

theorem chDelta_eq_neg_one (c : Char) (h : chDelta c = -1) : c = '[' := by
  unfold chDelta at h
  split_ifs at h with h1 h2
  exact h2

theorem chDelta_open : chDelta '[' = -1 := rfl

theorem seg_eq_nil_of_le {text : List Char} {i j : Nat} (h : j ≤ i) :
    seg text i j = [] := by
  apply List.drop_eq_nil_of_le
  rw [List.length_take]
  omega

theorem seg_eq_nil_of_len_le {text : List Char} {i j : Nat} (h : text.length ≤ i) :
    seg text i j = [] := by
  apply List.drop_eq_nil_of_le
  rw [List.length_take]
  omega

theorem getD_of_lt {text : List Char} {i : Nat} (h : i < text.length) :
    text[i]? = some (text.getD i ' ') := by
  rw [List.getD_eq_getElem?_getD, List.getElem?_eq_getElem h]
  exact (List.getElem?_eq_getElem h).symm ▸ rfl

theorem getD_eq_of_getElem? {text : List Char} {i : Nat} {c : Char}
    (h : text[i]? = some c) : text.getD i ' ' = c := by
  rw [List.getD_eq_getElem?_getD, h]
  rfl

theorem lt_length_of_getElem? {text : List Char} {i : Nat} {c : Char}
    (h : text[i]? = some c) : i < text.length := by
  by_contra hc
  rw [List.getElem?_eq_none (by omega)] at h
  exact Option.noConfusion h

/-- Removing the final position from a slice: the balance over `[r, p+1)`
is the balance over `[r, p)` plus the contribution of the character at `p`. -/
theorem seg_succ_right (text : List Char) (r p : Nat) (hr : r ≤ p) :
    closeMinusOpen (seg text r (p + 1)) =
      closeMinusOpen (seg text r p) + chDelta (text.getD p ' ') := by
  by_cases hp : p < text.length
  · have htake : text.take (p + 1) = text.take p ++ [text.getD p ' '] := by
      rw [List.take_succ, List.getElem?_eq_getElem hp]
      rw [List.getD_eq_getElem?_getD, List.getElem?_eq_getElem hp]
      simp
    unfold seg
    rw [htake, List.drop_append_eq_append_drop]
    have hlen : (text.take p).length = p := by
      rw [List.length_take]
      omega
    rw [hlen]
    have : r - p = 0 := by omega
    rw [this, List.drop_zero, closeMinusOpen_append, closeMinusOpen_singleton]
  · have h1 : text.take (p + 1) = text := List.take_of_length_le (by omega)
    have h2 : text.take p = text := List.take_of_length_le (by omega)
    have h3 : text.getD p ' ' = ' ' := by
      rw [List.getD_eq_getElem?_getD, List.getElem?_eq_none (by omega)]
      rfl
    unfold seg
    rw [h1, h2, h3]
    simp [chDelta]

/-- Exposing the first position of a slice. -/
theorem seg_cons_left {text : List Char} {r e : Nat} (hre : r < e)
    (hlen : r < text.length) :
    seg text r e = text.getD r ' ' :: seg text (r + 1) e := by
  unfold seg
  have hlt : r < (text.take e).length := by
    rw [List.length_take]
    omega
  rw [List.drop_eq_getElem_cons hlt]
  congr 1
  rw [List.getElem_take]
  rw [List.getD_eq_getElem?_getD, List.getElem?_eq_getElem hlen]
  rfl

/-- Characterisation of the backward scanning loop: it returns the greatest
position `q ≤ p` at which the running count reaches zero, if any. -/
theorem blockStartLoop_eq_some_iff (text : List Char) :
    ∀ p count q : Nat,
      blockStartLoop text p count = some q ↔
        q ≤ p ∧ (count : ℤ) + closeMinusOpen (seg text q p) = 0 ∧
          ∀ r, q < r → r ≤ p → (count : ℤ) + closeMinusOpen (seg text r p) ≠ 0 := by
  intro p
  induction p with
  | zero =>
    intro count q
    cases count with
    | zero =>
      constructor
      · intro h
        have hq : q = 0 := by
          have : (some 0 : Option Nat) = some q := h.symm ▸ rfl
          exact (Option.some_inj.mp this.symm)
        subst hq
        refine ⟨Nat.le_refl 0, ?_, ?_⟩
        · rw [seg_eq_nil_of_le (Nat.le_refl 0), closeMinusOpen_nil]
          omega
        · intro r hr hr0
          omega
      · rintro ⟨hq, _, _⟩
        have : q = 0 := by omega
        subst this
        rfl
    | succ c =>
      constructor
      · intro h
        exact Option.noConfusion h
      · rintro ⟨hq, h0, _⟩
        have : q = 0 := by omega
        subst this
        rw [seg_eq_nil_of_le (Nat.le_refl 0), closeMinusOpen_nil] at h0
        omega
  | succ p ih =>
    intro count q
    cases count with
    | zero =>
      constructor
      · intro h
        have hq : q = p + 1 := by
          have : (some (p + 1) : Option Nat) = some q := h.symm ▸ rfl
          exact (Option.some_inj.mp this.symm)
        subst hq
        refine ⟨Nat.le_refl _, ?_, ?_⟩
        · rw [seg_eq_nil_of_le (Nat.le_refl _), closeMinusOpen_nil]
          omega
        · intro r hr hrp
          omega
      · rintro ⟨hq, h0, hmax⟩
        rcases Nat.eq_or_lt_of_le hq with heq | hlt
        · subst heq
          rfl
        · exfalso
          apply hmax (p + 1) hlt (Nat.le_refl _)
          rw [seg_eq_nil_of_le (Nat.le_refl _), closeMinusOpen_nil]
          omega
    | succ c =>
      have hunfold : blockStartLoop text (p + 1) (c + 1) =
          blockStartLoop text p
            (if text.getD p ' ' = ']' then c + 2
             else if text.getD p ' ' = '[' then c else c + 1) := rfl
      have hcast :
          ((if text.getD p ' ' = ']' then c + 2
            else if text.getD p ' ' = '[' then c else c + 1 : Nat) : ℤ) =
            (c + 1 : ℤ) + chDelta (text.getD p ' ') := by
        unfold chDelta
        split_ifs <;> push_cast <;> ring
      have hstep : ∀ r, r ≤ p →
          ((c + 1 : Nat) : ℤ) + closeMinusOpen (seg text r (p + 1)) =
            ((if text.getD p ' ' = ']' then c + 2
              else if text.getD p ' ' = '[' then c else c + 1 : Nat) : ℤ) +
              closeMinusOpen (seg text r p) := by
        intro r hr
        rw [seg_succ_right text r p hr, hcast]
        push_cast
        ring
      rw [hunfold, ih _ q]
      constructor
      · rintro ⟨hq, h0, hmax⟩
        refine ⟨Nat.le_succ_of_le hq, ?_, ?_⟩
        · rw [hstep q hq]
          exact h0
        · intro r hqr hrp1
          rcases Nat.eq_or_lt_of_le hrp1 with heq | hlt
          · subst heq
            rw [seg_eq_nil_of_le (Nat.le_refl _), closeMinusOpen_nil]
            push_cast
            omega
          · have hrp : r ≤ p := by omega
            rw [hstep r hrp]
            exact hmax r hqr hrp
      · rintro ⟨hq, h0, hmax⟩
        have hqp : q ≤ p := by
          rcases Nat.eq_or_lt_of_le hq with heq | hlt
          · exfalso
            subst heq
            rw [seg_eq_nil_of_le (Nat.le_refl _), closeMinusOpen_nil] at h0
            push_cast at h0
            omega
          · omega
        refine ⟨hqp, ?_, ?_⟩
        · rw [← hstep q hqp]
          exact h0
        · intro r hqr hrp
          rw [← hstep r hrp]
          exact hmax r hqr (by omega)

/-- Along the backward scan, if the running depth (relative to the `]` at `e`)
never reaches zero on `[r, e]`, it stays positive there. -/
theorem depth_pos_of_no_zero (text : List Char) (e : Nat) :
    ∀ n r, e - r = n → r ≤ e →
      (∀ s, r ≤ s → s ≤ e → 1 + closeMinusOpen (seg text s e) ≠ 0) →
      0 < 1 + closeMinusOpen (seg text r e) := by
  intro n
  induction n with
  | zero =>
    intro r hn hr _
    have : r = e := by omega
    subst this
    rw [seg_eq_nil_of_le (Nat.le_refl _), closeMinusOpen_nil]
    omega
  | succ n ih =>
    intro r hn hr hnz
    have hre : r < e := by omega
    by_cases hlen : r < text.length
    · have hcons := seg_cons_left hre hlen
      have hpos1 : 0 < 1 + closeMinusOpen (seg text (r + 1) e) :=
        ih (r + 1) (by omega) (by omega) (fun s hs1 hs2 => hnz s (by omega) hs2)
      have hne : 1 + closeMinusOpen (seg text r e) ≠ 0 := hnz r (Nat.le_refl _) (by omega)
      have hbd := chDelta_bounds (text.getD r ' ')
      rw [hcons, closeMinusOpen_cons] at hne ⊢
      omega
    · rw [seg_eq_nil_of_len_le (by omega), closeMinusOpen_nil]
      omega

/-- If the depth relative to `e` is non-positive at `r`, some position in
`[r, e)` holds an `[` whose interior up to `e` is balanced. -/
theorem exists_open_of_nonpos (text : List Char) (e : Nat) :
    ∀ n r, e - r = n → r ≤ e → 1 + closeMinusOpen (seg text r e) ≤ 0 →
      ∃ q, r ≤ q ∧ q < e ∧ q < text.length ∧ text.getD q ' ' = '[' ∧
        closeMinusOpen (seg text (q + 1) e) = 0 := by
  intro n
  induction n with
  | zero =>
    intro r hn hr h0
    have : r = e := by omega
    subst this
    rw [seg_eq_nil_of_le (Nat.le_refl _), closeMinusOpen_nil] at h0
    omega
  | succ n ih =>
    intro r hn hr h0
    have hre : r < e := by omega
    by_cases hlen : r < text.length
    · have hcons := seg_cons_left hre hlen
      by_cases h1 : 1 + closeMinusOpen (seg text (r + 1) e) ≤ 0
      · obtain ⟨q, hq1, hq2, hq3, hq4, hq5⟩ := ih (r + 1) (by omega) (by omega) h1
        exact ⟨q, by omega, hq2, hq3, hq4, hq5⟩
      · push_neg at h1
        have hbd := chDelta_bounds (text.getD r ' ')
        rw [hcons, closeMinusOpen_cons] at h0
        have hd : chDelta (text.getD r ' ') = -1 := by omega
        have hbal : closeMinusOpen (seg text (r + 1) e) = 0 := by omega
        exact ⟨r, Nat.le_refl _, hre, hlen, chDelta_eq_neg_one _ hd, hbal⟩
    · rw [seg_eq_nil_of_len_le (by omega), closeMinusOpen_nil] at h0
      omega

/-- `findBlockStart` succeeds exactly on the nearest enclosing unmatched
opening delimiter. -/
theorem findBlockStart_eq_some_iff (text : List Char) (e p : Nat) :
    findBlockStart text e = some p ↔ nearestUnmatchedOpen text e p := by
  unfold findBlockStart
  rw [blockStartLoop_eq_some_iff]
  constructor
  · rintro ⟨hpe, h0, hmax⟩
    push_cast at h0 hmax
    have hlt : p < e := by
      rcases Nat.eq_or_lt_of_le hpe with heq | hlt
      · exfalso
        subst heq
        rw [seg_eq_nil_of_le (Nat.le_refl _), closeMinusOpen_nil] at h0
        omega
      · exact hlt
    have hpos : 0 < 1 + closeMinusOpen (seg text (p + 1) e) :=
      depth_pos_of_no_zero text e (e - (p + 1)) (p + 1) rfl (by omega)
        (fun s hs1 hs2 => hmax s (by omega) hs2)
    by_cases hlen : p < text.length
    · have hcons := seg_cons_left hlt hlen
      rw [hcons, closeMinusOpen_cons] at h0
      have hbd := chDelta_bounds (text.getD p ' ')
      have hd : chDelta (text.getD p ' ') = -1 := by omega
      have hbal : closeMinusOpen (seg text (p + 1) e) = 0 := by omega
      have hch : text.getD p ' ' = '[' := chDelta_eq_neg_one _ hd
      refine ⟨hlt, by rw [getD_of_lt hlen, hch], hbal, ?_⟩
      intro q hpq hqe hq' hqbal
      have hqlen : q < text.length := lt_length_of_getElem? hq'
      have hqD : text.getD q ' ' = '[' := getD_eq_of_getElem? hq'
      apply hmax q hpq (Nat.le_of_lt hqe)
      rw [seg_cons_left hqe hqlen, closeMinusOpen_cons, hqD, chDelta_open, hqbal]
      ring
    · exfalso
      rw [seg_eq_nil_of_len_le (by omega), closeMinusOpen_nil] at h0
      omega
  · rintro ⟨hlt, hp', hbal, hmaxO⟩
    have hplen : p < text.length := lt_length_of_getElem? hp'
    have hpD : text.getD p ' ' = '[' := getD_eq_of_getElem? hp'
    refine ⟨Nat.le_of_lt hlt, ?_, ?_⟩
    · rw [seg_cons_left hlt hplen, closeMinusOpen_cons, hpD, chDelta_open, hbal]
      norm_num
    · intro r hpr hre hzero
      push_cast at hzero
      obtain ⟨q, hq1, hq2, hq3, hq4, hq5⟩ :=
        exists_open_of_nonpos text e (e - r) r rfl hre (le_of_eq hzero)
      exact hmaxO q (by omega) hq2 (by rw [getD_of_lt hq3, hq4]) hq5

/-- Every produced match records exactly the position found by the backward
scan as its opening delimiter. -/
theorem mem_findBlockMatches_start {text : List Char} {m : BlockMatch}
    (hm : m ∈ findBlockMatches text) :
    findBlockStart text m.endPos = some m.startPos := by
  unfold findBlockMatches at hm
  rw [List.mem_filterMap] at hm
  obtain ⟨e, _, hmap⟩ := hm
  rw [Option.map_eq_some'] at hmap
  obtain ⟨s, hs, hmk⟩ := hmap
  subst hmk
  exact hs

/-- Claim C1: for every input text, `findBlockStart` (the backward scan with
a depth counter incrementing on `]` and decrementing on `[`) resolves exactly
the nearest enclosing unmatched opening delimiter — so a block whose body
contains a balanced nested `[...]` pair is attributed to its outer `[`; the
content of every produced match is the substring strictly between the matched
`[` and the `]`, trimmed of surrounding whitespace; and an occurrence whose
backward scan resolves no opening delimiter produces no block at all. -/
theorem claim_C1 (text : List Char) :
    (∀ e p, findBlockStart text e = some p ↔ nearestUnmatchedOpen text e p) ∧
    (∀ m ∈ findBlockMatches text,
        findBlockStart text m.endPos = some m.startPos ∧
        ∀ filePath, (createBlockFromMatch m filePath text).content =
          trimChars (seg text (m.startPos + 1) m.endPos)) ∧
    (∀ e, findBlockStart text e = none → ∀ m ∈ findBlockMatches text, m.endPos ≠ e) := by
  refine ⟨findBlockStart_eq_some_iff text, ?_, ?_⟩
  · intro m hm
    exact ⟨mem_findBlockMatches_start hm, fun _ => rfl⟩
  · intro e he m hm heq
    have hs := mem_findBlockMatches_start hm
    rw [heq, he] at hs
    exact Option.noConfusion hs

/-- Concrete instance of C1: in `"[outer [inner] tail] @abc"` the closing
delimiter at position 19 is attributed to the outer `[` at position 0, past
the balanced nested pair. -/
theorem claim_C1_witness :
    nearestUnmatchedOpen ("[outer [inner] tail] @abc".data) 19 0 :=
  ((claim_C1 ("[outer [inner] tail] @abc".data)).1 19 0).mp (by decide)

/-! ### The `BlockParser` index state and `parseFile` -/

structure ParserState where
  blockMap : List (String × PBlock)
  fileIndex : List (String × List String)
  deriving DecidableEq, Repr

/-- `setBlock` from the source: store the block and add the id to the file
index entry (creating the entry when absent). -/
def setBlock (st : ParserState) (id : String) (b : PBlock) : ParserState :=
  { blockMap := mapSet st.blockMap id b
    fileIndex := addToIndex st.fileIndex b.file id }

/-- `deleteBlock` from the source: look the block up, remove it from the map
and from its source file's index entry, dropping the entry when it empties. -/
def deleteBlock (st : ParserState) (id : String) : ParserState :=
  match alookup st.blockMap id with
  | none => st
  | some b =>
      { blockMap := mapDelete st.blockMap id
        fileIndex := removeFromIndex st.fileIndex b.file id }

def getBlockIdsFromFile (st : ParserState) (filePath : String) : List String :=
  (alookup st.fileIndex filePath).getD []

def getBlock (st : ParserState) (id : String) : Option PBlock :=
  alookup st.blockMap id

def getAllBlocks (st : ParserState) : List PBlock :=
  st.blockMap.map (·.2)

/-- `parseFile` from the source (the file's current text is passed in place
of the `fileStorage.readFile` call): delete all blocks previously attributed
to the file, then insert a block for every match.  `createBlockFromMatch`
never returns `null`, so every match is inserted. -/
def parseFile (st : ParserState) (filePath : String) (text : List Char) : ParserState :=
  let ms := findBlockMatches text
  let st1 := (getBlockIdsFromFile st filePath).foldl (fun s i => deleteBlock s i) st
  ms.foldl (fun s m => setBlock s m.id (createBlockFromMatch m filePath text)) st1

/-- The ids extracted from a text. -/
def extractedIds (text : List Char) : List String :=
  (findBlockMatches text).map (·.id)

theorem deleteBlock_of_none {st : ParserState} {id : String}
    (h : alookup st.blockMap id = none) : deleteBlock st id = st := by
  unfold deleteBlock
  rw [h]

theorem deleteBlock_blockMap_some {st : ParserState} {id : String} {b : PBlock}
    (h : alookup st.blockMap id = some b) :
    (deleteBlock st id).blockMap = mapDelete st.blockMap id := by
  unfold deleteBlock
  rw [h]

theorem deleteBlock_fileIndex_some {st : ParserState} {id : String} {b : PBlock}
    (h : alookup st.blockMap id = some b) :
    (deleteBlock st id).fileIndex = removeFromIndex st.fileIndex b.file id := by
  unfold deleteBlock
  rw [h]

theorem deleteBlock_fileIndex_other {st : ParserState} {id : String} {b : PBlock}
    (h : alookup st.blockMap id = some b) (f : String) (hf : f ≠ b.file) :
    alookup (deleteBlock st id).fileIndex f = alookup st.fileIndex f := by
  rw [deleteBlock_fileIndex_some h]
  exact alookup_removeFromIndex_other _ _ _ _ hf

theorem deleteBlock_attribution {st : ParserState} {id : String} {b : PBlock}
    (h : alookup st.blockMap id = some b) (x : String) :
    x ∈ getBlockIdsFromFile (deleteBlock st id) b.file ↔
      x ∈ getBlockIdsFromFile st b.file ∧ x ≠ id := by
  unfold getBlockIdsFromFile
  rw [deleteBlock_fileIndex_some h]
  exact mem_removeFromIndex _ _ _ _

theorem setBlock_blockMap (st : ParserState) (id : String) (b : PBlock) (id' : String) :
    alookup (setBlock st id b).blockMap id' =
      if id = id' then some b else alookup st.blockMap id' := by
  unfold setBlock
  exact alookup_mapSet _ _ _ _

theorem setBlock_fileIndex_other (st : ParserState) (id : String) (b : PBlock)
    (f : String) (hf : f ≠ b.file) :
    alookup (setBlock st id b).fileIndex f = alookup st.fileIndex f := by
  unfold setBlock
  exact alookup_addToIndex_other _ _ _ _ hf

theorem setBlock_attribution (st : ParserState) (id : String) (b : PBlock) (x : String) :
    x ∈ getBlockIdsFromFile (setBlock st id b) b.file ↔
      x ∈ getBlockIdsFromFile st b.file ∨ x = id := by
  unfold setBlock getBlockIdsFromFile
  exact mem_addToIndex _ _ _ _

/-- Invariant carried through the deletion phase of `parseFile`: each id to
be deleted is present in the forward map exactly when it is still attributed
to the file, and its block (when present) belongs to the file. -/
def DelInv (filePath : String) (st : ParserState) (ids : List String) : Prop :=
  ∀ id ∈ ids,
    ((alookup st.blockMap id).isSome ↔ id ∈ getBlockIdsFromFile st filePath) ∧
    (∀ b, alookup st.blockMap id = some b → b.file = filePath)

theorem deleteFold_spec (filePath : String) :
    ∀ (ids : List String) (st : ParserState), DelInv filePath st ids →
      (∀ id, alookup (ids.foldl (fun s i => deleteBlock s i) st).blockMap id =
          if id ∈ ids then none else alookup st.blockMap id) ∧
      (∀ f, f ≠ filePath →
          alookup (ids.foldl (fun s i => deleteBlock s i) st).fileIndex f =
            alookup st.fileIndex f) ∧
      (∀ id, id ∈ getBlockIdsFromFile (ids.foldl (fun s i => deleteBlock s i) st) filePath →
          id ∈ getBlockIdsFromFile st filePath ∧ id ∉ ids) := by
  intro ids
  induction ids with
  | nil =>
    intro st _
    refine ⟨fun id => by simp, fun f _ => rfl, fun id hid => ⟨hid, by simp⟩⟩
  | cons id0 rest ih =>
    intro st hinv
    have h0 := hinv id0 (List.mem_cons_self id0 rest)
    cases hb0 : alookup st.blockMap id0 with
    | some b0 =>
      have hfile : b0.file = filePath := h0.2 b0 hb0
      have hbm : (deleteBlock st id0).blockMap = mapDelete st.blockMap id0 :=
        deleteBlock_blockMap_some hb0
      have hattr : ∀ x, x ∈ getBlockIdsFromFile (deleteBlock st id0) filePath ↔
          x ∈ getBlockIdsFromFile st filePath ∧ x ≠ id0 := by
        intro x
        have := deleteBlock_attribution hb0 x
        rwa [hfile] at this
      have hoth : ∀ f, f ≠ filePath →
          alookup (deleteBlock st id0).fileIndex f = alookup st.fileIndex f := by
        intro f hf
        exact deleteBlock_fileIndex_other hb0 f (by rw [hfile]; exact hf)
      have hinv' : DelInv filePath (deleteBlock st id0) rest := by
        intro id hid
        have hI := hinv id (List.mem_cons_of_mem _ hid)
        by_cases heq : id = id0
        · subst heq
          constructor
          · rw [hbm, alookup_mapDelete, if_pos rfl]
            simp only [Option.isSome_none, Bool.false_eq_true, false_iff]
            intro hmem
            exact ((hattr id).mp hmem).2 rfl
          · intro b hb
            rw [hbm, alookup_mapDelete, if_pos rfl] at hb
            exact Option.noConfusion hb
        · constructor
          · rw [hbm, alookup_mapDelete, if_neg (fun hc => heq hc.symm), hattr id]
            rw [hI.1]
            constructor
            · exact fun h => ⟨h, heq⟩
            · exact fun h => h.1
          · intro b hb
            rw [hbm, alookup_mapDelete, if_neg (fun hc => heq hc.symm)] at hb
            exact hI.2 b hb
      obtain ⟨A, B, C⟩ := ih (deleteBlock st id0) hinv'
      have hfold : (id0 :: rest).foldl (fun s i => deleteBlock s i) st =
          rest.foldl (fun s i => deleteBlock s i) (deleteBlock st id0) := rfl
      refine ⟨?_, ?_, ?_⟩
      · intro id
        rw [hfold, A id]
        by_cases hr : id ∈ rest
        · rw [if_pos hr, if_pos (List.mem_cons_of_mem _ hr)]
        · rw [if_neg hr]
          by_cases heq : id = id0
          · subst heq
            rw [hbm, alookup_mapDelete, if_pos rfl,
              if_pos (List.mem_cons_self id rest)]
          · rw [hbm, alookup_mapDelete, if_neg (fun hc => heq hc.symm),
              if_neg (by simp [heq, hr])]
      · intro f hf
        rw [hfold, B f hf, hoth f hf]
      · intro id hid
        rw [hfold] at hid
        obtain ⟨h1, h2⟩ := C id hid
        have h3 := (hattr id).mp h1
        exact ⟨h3.1, by simp [h3.2, h2]⟩
    | none =>
      have hst : deleteBlock st id0 = st := deleteBlock_of_none hb0
      have hnattr : id0 ∉ getBlockIdsFromFile st filePath := by
        intro hmem
        have := h0.1.mpr hmem
        rw [hb0] at this
        exact Bool.noConfusion this
      have hinv' : DelInv filePath st rest :=
        fun id hid => hinv id (List.mem_cons_of_mem _ hid)
      obtain ⟨A, B, C⟩ := ih st hinv'
      have hfold : (id0 :: rest).foldl (fun s i => deleteBlock s i) st =
          rest.foldl (fun s i => deleteBlock s i) st := by
        rw [List.foldl_cons, hst]
      refine ⟨?_, ?_, ?_⟩
      · intro id
        rw [hfold, A id]
        by_cases hr : id ∈ rest
        · rw [if_pos hr, if_pos (List.mem_cons_of_mem _ hr)]
        · rw [if_neg hr]
          by_cases heq : id = id0
          · subst heq
            rw [hb0, if_pos (List.mem_cons_self id rest)]
          · rw [if_neg (by simp [heq, hr])]
      · intro f hf
        rw [hfold, B f hf]
      · intro id hid
        rw [hfold] at hid
        obtain ⟨h1, h2⟩ := C id hid
        refine ⟨h1, ?_⟩
        intro hc
        rcases List.mem_cons.mp hc with heq | hr
        · subst heq
          exact hnattr h1
        · exact h2 hr

theorem setFold_spec (filePath : String) (text : List Char) :
    ∀ (ms : List BlockMatch) (st : ParserState),
      (∀ id, id ∉ ms.map (·.id) →
          alookup (ms.foldl (fun s m => setBlock s m.id (createBlockFromMatch m filePath text)) st).blockMap id =
            alookup st.blockMap id) ∧
      (∀ id, id ∈ ms.map (·.id) →
          ∃ b, alookup (ms.foldl (fun s m => setBlock s m.id (createBlockFromMatch m filePath text)) st).blockMap id =
            some b ∧ b.file = filePath) ∧
      (∀ f, f ≠ filePath →
          alookup (ms.foldl (fun s m => setBlock s m.id (createBlockFromMatch m filePath text)) st).fileIndex f =
            alookup st.fileIndex f) ∧
      (∀ id, id ∈ getBlockIdsFromFile (ms.foldl (fun s m => setBlock s m.id (createBlockFromMatch m filePath text)) st) filePath ↔
          id ∈ getBlockIdsFromFile st filePath ∨ id ∈ ms.map (·.id)) := by
  intro ms
  induction ms with
  | nil =>
    intro st
    exact ⟨fun id _ => rfl, fun id hid => absurd hid (by simp),
      fun f _ => rfl, fun id => by simp⟩
  | cons m rest ih =>
    intro st
    have hfile : (createBlockFromMatch m filePath text).file = filePath := rfl
    obtain ⟨A, B, Cf, D⟩ := ih (setBlock st m.id (createBlockFromMatch m filePath text))
    have hfold : (m :: rest).foldl (fun s m => setBlock s m.id (createBlockFromMatch m filePath text)) st =
        rest.foldl (fun s m => setBlock s m.id (createBlockFromMatch m filePath text))
          (setBlock st m.id (createBlockFromMatch m filePath text)) := rfl
    refine ⟨?_, ?_, ?_, ?_⟩
    · intro id hid
      have hnm : id ≠ m.id := by
        intro hc
        exact hid (by simp [hc])
      have hnr : id ∉ rest.map (·.id) := by
        intro hc
        exact hid (by simp [hc])
      rw [hfold, A id hnr, setBlock_blockMap, if_neg (fun hc => hnm hc.symm)]
    · intro id hid
      rw [hfold]
      by_cases hr : id ∈ rest.map (·.id)
      · exact B id hr
      · have heq : id = m.id := by
          rw [List.map_cons, List.mem_cons] at hid
          rcases hid with h | h
          · exact h
          · exact absurd h hr
        refine ⟨createBlockFromMatch m filePath text, ?_, hfile⟩
        rw [A id hr, setBlock_blockMap, if_pos heq.symm]
    · intro f hf
      rw [hfold, Cf f hf, setBlock_fileIndex_other st m.id _ f (by rw [hfile]; exact hf)]
    · intro id
      rw [hfold, D id]
      have hset := setBlock_attribution st m.id (createBlockFromMatch m filePath text) id
      rw [hfile] at hset
      rw [hset]
      simp only [List.map_cons, List.mem_cons]
      tauto

/-- Claim C2 (amended): provided the file's attribution set is consistent
with the forward map (every attributed id maps to a block of this file, and
every block of this file is attributed) and no extracted id currently belongs
to a different file, `parseFile` reconciles exactly: afterwards the ids
attributed to the file are exactly the extracted ids, blocks of other files
and other files' attribution entries are unchanged, every extracted id maps
to a block of this file, and ids no longer present in the text no longer map
to blocks of this file. -/
theorem claim_C2 (st : ParserState) (filePath : String) (text : List Char)
    (H1 : ∀ id ∈ getBlockIdsFromFile st filePath,
        ∃ b, alookup st.blockMap id = some b ∧ b.file = filePath)
    (H2 : ∀ id b, alookup st.blockMap id = some b → b.file = filePath →
        id ∈ getBlockIdsFromFile st filePath)
    (H3 : ∀ id ∈ extractedIds text, ∀ b, alookup st.blockMap id = some b →
        b.file = filePath) :
    (∀ id, id ∈ getBlockIdsFromFile (parseFile st filePath text) filePath ↔
        id ∈ extractedIds text) ∧
    (∀ id b, alookup st.blockMap id = some b → b.file ≠ filePath →
        alookup (parseFile st filePath text).blockMap id = some b) ∧
    (∀ id b, alookup (parseFile st filePath text).blockMap id = some b →
        b.file ≠ filePath → alookup st.blockMap id = some b) ∧
    (∀ f, f ≠ filePath →
        alookup (parseFile st filePath text).fileIndex f = alookup st.fileIndex f) ∧
    (∀ id, id ∈ extractedIds text →
        ∃ b, alookup (parseFile st filePath text).blockMap id = some b ∧
          b.file = filePath) ∧
    (∀ id, id ∉ extractedIds text →
        ∀ b, alookup (parseFile st filePath text).blockMap id = some b →
          b.file ≠ filePath) := by
  have hinv : DelInv filePath st (getBlockIdsFromFile st filePath) := by
    intro id hid
    obtain ⟨b, hb, hbf⟩ := H1 id hid
    refine ⟨⟨fun _ => hid, fun _ => by rw [hb]; rfl⟩, ?_⟩
    intro b' hb'
    rw [hb] at hb'
    injection hb' with h
    rw [← h]
    exact hbf
  obtain ⟨A, B, C⟩ := deleteFold_spec filePath (getBlockIdsFromFile st filePath) st hinv
  obtain ⟨SA, SB, SC, SD⟩ := setFold_spec filePath text (findBlockMatches text)
    ((getBlockIdsFromFile st filePath).foldl (fun s i => deleteBlock s i) st)
  have hparse : parseFile st filePath text =
      (findBlockMatches text).foldl
        (fun s m => setBlock s m.id (createBlockFromMatch m filePath text))
        ((getBlockIdsFromFile st filePath).foldl (fun s i => deleteBlock s i) st) := by
    rfl
  have hext : (findBlockMatches text).map (·.id) = extractedIds text := rfl
  refine ⟨?_, ?_, ?_, ?_, ?_, ?_⟩
  · intro id
    rw [hparse, SD id, hext]
    constructor
    · rintro (h | h)
      · obtain ⟨h1, h2⟩ := C id h
        exact absurd h1 h2
      · exact h
    · exact Or.inr
  · intro id b hb hbf
    have hne : id ∉ extractedIds text := by
      intro hc
      exact hbf (H3 id hc b hb)
    have hni : id ∉ getBlockIdsFromFile st filePath := by
      intro hc
      obtain ⟨b', hb', hbf'⟩ := H1 id hc
      rw [hb] at hb'
      injection hb' with h
      exact hbf (h ▸ hbf')
    rw [hparse, SA id (by rw [hext]; exact hne), A id, if_neg hni]
    exact hb
  · intro id b hb hbf
    have hne : id ∉ extractedIds text := by
      intro hc
      obtain ⟨b', hb', hbf'⟩ := SB id (by rw [hext]; exact hc)
      rw [hparse] at hb
      rw [hb] at hb'
      injection hb' with h
      exact hbf (h ▸ hbf')
    rw [hparse, SA id (by rw [hext]; exact hne), A id] at hb
    by_cases hni : id ∈ getBlockIdsFromFile st filePath
    · rw [if_pos hni] at hb
      exact Option.noConfusion hb
    · rw [if_neg hni] at hb
      exact hb
  · intro f hf
    rw [hparse, SC f hf, B f hf]
  · intro id hid
    rw [hparse]
    exact SB id (by rw [hext]; exact hid)
  · intro id hid b hb hbf
    rw [hparse, SA id (by rw [hext]; exact hid), A id] at hb
    by_cases hni : id ∈ getBlockIdsFromFile st filePath
    · rw [if_pos hni] at hb
      exact Option.noConfusion hb
    · rw [if_neg hni] at hb
      exact hni (H2 id b hb hbf)

/-- Witness for C2: parsing `"[x] @abc"` into the empty index under path
`"A"` attributes exactly the id `"abc"` to that file. -/
theorem claim_C2_witness :
    "abc" ∈ getBlockIdsFromFile
      (parseFile { blockMap := [], fileIndex := [] } "A" ("[x] @abc".data)) "A" := by
  have h := claim_C2 { blockMap := [], fileIndex := [] } "A" ("[x] @abc".data)
    (fun id hid => absurd hid (List.not_mem_nil id))
    (fun id b hb _ => Option.noConfusion hb)
    (fun id _ b hb => Option.noConfusion hb)
  exact (h.1 "abc").mpr (by decide)

/-- Counterexample to C2 as stated: with the same id defined in two files,
re-parsing file `"A"` with empty text deletes the block now owned by file
`"B"`, so a block whose source file is a different path is *not* left
unchanged for every index state. -/
theorem claim_C2_counterexample :
    (∃ b, alookup (parseFile
        (parseFile (parseFile { blockMap := [], fileIndex := [] } "A" ("[x] @dup".data))
          "B" ("[y] @dup".data)) "A" []).blockMap "dup" = none ∧
      alookup (parseFile (parseFile { blockMap := [], fileIndex := [] } "A" ("[x] @dup".data))
          "B" ("[y] @dup".data)).blockMap "dup" = some b ∧
      b.file = "B") := by
  refine ⟨{ id := "dup", content := "y".data, file := "B", line := 0 }, ?_, ?_, rfl⟩
  · decide
  · decide

end BlockParser

namespace BlockManager

open KernelMdx

/-!
### `BlockManager` (src/src/blockManager.ts, first revision)

The eventful revision of the index: `set` emits `block:added` or
`block:updated`, `delete` emits `block:removed` and returns whether an entry
was removed, `clear` empties both maps and emits `blocks:cleared`.
-/

structure MBlock where
  content : String
  file : String
  line : Nat
  deriving DecidableEq, Repr

inductive BMEvent where
  | added (id : String)
  | updated (id : String)
  | removed (id : String)
  | cleared
  deriving DecidableEq, Repr

structure BMState where
  blockMap : List (String × MBlock)
  fileIndex : List (String × List String)
  deriving DecidableEq, Repr

/-- `BlockManager.set`: store the block, add the id to its file's index
entry, and emit `block:added` for a fresh id or `block:updated` otherwise. -/
def bmSet (st : BMState) (id : String) (b : MBlock) : BMState × List BMEvent :=
  let isNew := !(hasKey st.blockMap id)
  ({ blockMap := mapSet st.blockMap id b
     fileIndex := addToIndex st.fileIndex b.file id },
   [if isNew then BMEvent.added id else BMEvent.updated id])

/-- `BlockManager.delete`: absent ids return `false` without touching state
or emitting; present ids are removed from both maps with `block:removed`. -/
def bmDelete (st : BMState) (id : String) : BMState × Bool × List BMEvent :=
  match alookup st.blockMap id with
  | none => (st, false, [])
  | some b =>
      ({ blockMap := mapDelete st.blockMap id
         fileIndex := removeFromIndex st.fileIndex b.file id },
       true, [BMEvent.removed id])

/-- `BlockManager.clear`. -/
def bmClear (_st : BMState) : BMState × List BMEvent :=
  ({ blockMap := [], fileIndex := [] }, [BMEvent.cleared])

/-- The ids attributed to a file. -/
def idsOfFile (st : BMState) (f : String) : List String :=
  (alookup st.fileIndex f).getD []

/-- The two consistency conjuncts exactly as claimed: every attributed id is
in the forward map, and every mapped id is attributed to its block's file. -/
def ClaimInv (st : BMState) : Prop :=
  (∀ f ids, alookup st.fileIndex f = some ids →
      ∀ id ∈ ids, ∃ b, alookup st.blockMap id = some b) ∧
  (∀ id b, alookup st.blockMap id = some b → id ∈ idsOfFile st b.file)

/-- The strengthened invariant that the operations actually preserve: an id
is in a file's attribution set iff that file is its current block's source. -/
def StrongInv (st : BMState) : Prop :=
  ∀ f id, id ∈ idsOfFile st f ↔ ∃ b, alookup st.blockMap id = some b ∧ b.file = f

/-- Claim C10: for every index state, `delete` of an id absent from the
forward map returns `false` and leaves the whole state unchanged, emitting no
event; `delete` of a present id returns `true` (and emits `block:removed`). -/
theorem claim_C10 (st : BMState) (id : String) :
    (alookup st.blockMap id = none → bmDelete st id = (st, false, [])) ∧
    (∀ b, alookup st.blockMap id = some b →
        (bmDelete st id).2.1 = true ∧ (bmDelete st id).2.2 = [BMEvent.removed id]) := by
  constructor
  · intro h
    unfold bmDelete
    rw [h]
  · intro b h
    unfold bmDelete
    rw [h]
    exact ⟨rfl, rfl⟩

/-- Concrete instance of C10: deleting the absent id `"zzz"` from a populated
index returns `false`, emits nothing, and changes no entry. -/
theorem claim_C10_witness :
    bmDelete { blockMap := [("abc123", { content := "hooks note", file := "A", line := 0 })]
               fileIndex := [("A", ["abc123"])] } "zzz" =
      ({ blockMap := [("abc123", { content := "hooks note", file := "A", line := 0 })]
         fileIndex := [("A", ["abc123"])] }, false, []) :=
  (claim_C10 _ "zzz").1 (by decide)

theorem strongInv_empty : StrongInv { blockMap := [], fileIndex := [] } := by
  intro f id
  simp [idsOfFile, alookup]

theorem strongInv_claimInv {st : BMState} (h : StrongInv st) : ClaimInv st := by
  constructor
  · intro f ids hids id hid
    have hmem : id ∈ idsOfFile st f := by
      unfold idsOfFile
      rw [hids]
      exact hid
    obtain ⟨b, hb, _⟩ := (h f id).mp hmem
    exact ⟨b, hb⟩
  · intro id b hb
    exact (h b.file id).mpr ⟨b, hb, rfl⟩

theorem strongInv_bmSet {st : BMState} (id : String) (b : MBlock) (h : StrongInv st)
    (hmove : ∀ b0, alookup st.blockMap id = some b0 → b0.file = b.file) :
    StrongInv (bmSet st id b).1 := by
  intro f x
  have hbm : (bmSet st id b).1.blockMap = mapSet st.blockMap id b := rfl
  have hfi : (bmSet st id b).1.fileIndex = addToIndex st.fileIndex b.file id := rfl
  unfold idsOfFile
  rw [hbm, hfi]
  by_cases hfb : f = b.file
  · subst hfb
    rw [mem_addToIndex]
    constructor
    · rintro (hx | rfl)
      · obtain ⟨b', hb', hbf'⟩ := (h b.file x).mp hx
        by_cases hxi : x = id
        · subst hxi
          exact ⟨b, by rw [alookup_mapSet, if_pos rfl], (hmove b' hb').symm ▸ hbf'⟩
        · exact ⟨b', by rw [alookup_mapSet, if_neg (fun hc => hxi hc.symm)]; exact hb', hbf'⟩
      · exact ⟨b, by rw [alookup_mapSet, if_pos rfl], rfl⟩
    · rintro ⟨b', hb', hbf'⟩
      rw [alookup_mapSet] at hb'
      by_cases hxi : id = x
      · exact Or.inr hxi.symm
      · rw [if_neg hxi] at hb'
        exact Or.inl ((h b.file x).mpr ⟨b', hb', hbf'⟩)
  · rw [alookup_addToIndex_other _ _ _ _ hfb]
    have hbase := h f x
    unfold idsOfFile at hbase
    rw [hbase]
    constructor
    · rintro ⟨b', hb', hbf'⟩
      by_cases hxi : id = x
      · subst hxi
        exact absurd ((hmove b' hb').symm.trans hbf') (fun hc => hfb hc.symm)
      · exact ⟨b', by rw [alookup_mapSet, if_neg hxi]; exact hb', hbf'⟩
    · rintro ⟨b', hb', hbf'⟩
      rw [alookup_mapSet] at hb'
      by_cases hxi : id = x
      · rw [if_pos hxi] at hb'
        injection hb' with hb''
        exact absurd (hb'' ▸ hbf') (fun hc => hfb hc.symm)
      · rw [if_neg hxi] at hb'
        exact ⟨b', hb', hbf'⟩

theorem strongInv_bmDelete {st : BMState} (id : String) (h : StrongInv st) :
    StrongInv (bmDelete st id).1 := by
  cases hb0 : alookup st.blockMap id with
  | none =>
    have hst : (bmDelete st id).1 = st := by
      unfold bmDelete
      rw [hb0]
    rw [hst]
    exact h
  | some b0 =>
    have hbm : (bmDelete st id).1.blockMap = mapDelete st.blockMap id := by
      unfold bmDelete
      rw [hb0]
    have hfi : (bmDelete st id).1.fileIndex = removeFromIndex st.fileIndex b0.file id := by
      unfold bmDelete
      rw [hb0]
    intro f x
    unfold idsOfFile
    rw [hbm, hfi]
    by_cases hfb : f = b0.file
    · subst hfb
      rw [mem_removeFromIndex]
      constructor
      · rintro ⟨hx, hxi⟩
        obtain ⟨b', hb', hbf'⟩ := (h b0.file x).mp hx
        exact ⟨b', by rw [alookup_mapDelete, if_neg (fun hc => hxi hc.symm)]; exact hb', hbf'⟩
      · rintro ⟨b', hb', hbf'⟩
        rw [alookup_mapDelete] at hb'
        by_cases hxi : id = x
        · rw [if_pos hxi] at hb'
          exact Option.noConfusion hb'
        · rw [if_neg hxi] at hb'
          exact ⟨(h b0.file x).mpr ⟨b', hb', hbf'⟩, fun hc => hxi hc.symm⟩
    · rw [alookup_removeFromIndex_other _ _ _ _ hfb]
      have hbase := h f x
      unfold idsOfFile at hbase
      rw [hbase]
      constructor
      · rintro ⟨b', hb', hbf'⟩
        by_cases hxi : id = x
        · subst hxi
          rw [hb0] at hb'
          injection hb' with hb''
          exact absurd (hb'' ▸ hbf') (fun hc => hfb hc.symm)
        · exact ⟨b', by rw [alookup_mapDelete, if_neg hxi]; exact hb', hbf'⟩
      · rintro ⟨b', hb', hbf'⟩
        rw [alookup_mapDelete] at hb'
        by_cases hxi : id = x
        · rw [if_pos hxi] at hb'
          exact Option.noConfusion hb'
        · rw [if_neg hxi] at hb'
          exact ⟨b', hb', hbf'⟩

/-- Claim C7 (amended): the strengthened mutual-consistency invariant — an id
is in a file's attribution set iff that file is its current block's source —
holds of the empty index, implies the claimed two-way consistency, and is
preserved by `delete`, by `clear`, and by `set` whenever the id is not being
re-assigned from a different file.  (Parse calls mutate the maps only through
these operations with no intervening suspension point, so no partial state is
observable between public operations.) -/
theorem claim_C7 :
    StrongInv { blockMap := [], fileIndex := [] } ∧
    (∀ st, StrongInv st → ClaimInv st) ∧
    (∀ st id b, StrongInv st →
        (∀ b0, alookup st.blockMap id = some b0 → b0.file = b.file) →
        StrongInv (bmSet st id b).1) ∧
    (∀ st id, StrongInv st → StrongInv (bmDelete st id).1) ∧
    (∀ st, StrongInv st → StrongInv (bmClear st).1) :=
  ⟨strongInv_empty, fun _ h => strongInv_claimInv h,
    fun _ id b h hm => strongInv_bmSet id b h hm,
    fun _ id h => strongInv_bmDelete id h,
    fun _ _ => strongInv_empty⟩

/-- Concrete instance of C7 (amended): inserting a fresh block into the empty
index preserves the strengthened invariant. -/
theorem claim_C7_witness :
    StrongInv (bmSet { blockMap := [], fileIndex := [] } "abc123"
      { content := "hooks note", file := "A", line := 0 }).1 :=
  claim_C7.2.2.1 { blockMap := [], fileIndex := [] } "abc123"
    { content := "hooks note", file := "A", line := 0 }
    strongInv_empty
    (fun _ hb0 => Option.noConfusion hb0)

/-- Counterexample to C7 as stated: the public sequence `set x (file A)`,
`set x (file B)`, `delete x` leaves `x` in file `A`'s attribution set while
the forward map no longer contains `x` — the claimed consistency does not
hold at every point between public operations. -/
theorem claim_C7_counterexample :
    ¬ ClaimInv (bmDelete (bmSet (bmSet { blockMap := [], fileIndex := [] }
        "x" { content := "c1", file := "A", line := 0 }).1
        "x" { content := "c2", file := "B", line := 0 }).1 "x").1 := by
  intro h
  obtain ⟨b, hb⟩ := h.1 "A" ["x"] (by decide) "x" (by decide)
  rw [show alookup (bmDelete (bmSet (bmSet { blockMap := [], fileIndex := [] }
      "x" { content := "c1", file := "A", line := 0 }).1
      "x" { content := "c2", file := "B", line := 0 }).1 "x").1.blockMap "x" = none
    from by decide] at hb
  exact Option.noConfusion hb

end BlockManager

namespace EmbeddingsService

open KernelMdx

/-!
### `EmbeddingsService` (src/unnamed/part_007 lines 71–222)

`findSimilar` obtains one embedding per candidate block through the
content-hash-validated cache (`getBlockEmbeddings`), then has the worker
score them against the query embedding, zips the scores back by index, sorts
descending and truncates to `topK`.  Scores are JS numbers, modelled as `ℚ`;
the MD5 content hash is an abstract parameter `hash`; the worker's `/embed`
endpoint is an abstract parameter `embedFn` returning one vector per text.
`Array.prototype.sort` is stable (ES2019), so the comparator
`(a, b) => b.score - a.score` is modelled by a stable insertion sort on
`b.score ≤ a.score`.
-/

structure BlockRef where
  id : String
  content : String
  deriving DecidableEq, Repr

structure CachedEmbedding where
  contentHash : String
  embedding : List ℚ
  timestamp : Nat
  deriving DecidableEq, Repr

structure SimResult where
  chunk : String
  score : ℚ
  index : Nat
  deriving DecidableEq, Repr

/-- Stable insertion of one element into a descending-sorted list: the new,
originally-earlier element goes before any tie. -/
def insertDesc (a : SimResult) : List SimResult → List SimResult
  | [] => [a]
  | b :: bs => if b.score ≤ a.score then a :: b :: bs else b :: insertDesc a bs

/-- Stable descending sort by score, modelling
`results.sort((a, b) => b.score - a.score)`. -/
def sortDesc (l : List SimResult) : List SimResult :=
  l.foldr insertDesc []

/-- `similarities.map((score, i) => ({chunk: blocks[i].content, score, index: i}))`. -/
def simResults (blocks : List BlockRef) (similarities : List ℚ) : List SimResult :=
  similarities.enum.map fun p =>
    { chunk := (blocks.getD p.1 { id := "", content := "" }).content
      score := p.2
      index := p.1 }

/-- The result-construction phase of `findSimilar`: zip the worker's scores
back onto the blocks by index, sort descending, return the first `topK`. -/
def findSimilarRank (blocks : List BlockRef) (similarities : List ℚ) (topK : Nat) :
    List SimResult :=
  (sortDesc (simResults blocks similarities)).take topK

theorem mem_insertDesc (a x : SimResult) (l : List SimResult) :
    x ∈ insertDesc a l ↔ x = a ∨ x ∈ l := by
  induction l with
  | nil => simp [insertDesc]
  | cons b bs ih =>
    by_cases h : b.score ≤ a.score
    · simp [insertDesc, h]
    · simp [insertDesc, h, ih]
      tauto

theorem insertDesc_perm (a : SimResult) (l : List SimResult) :
    List.Perm (insertDesc a l) (a :: l) := by
  induction l with
  | nil => exact List.Perm.refl _
  | cons b bs ih =>
    by_cases h : b.score ≤ a.score
    · simp only [insertDesc, if_pos h]
      exact List.Perm.refl _
    · simp only [insertDesc, if_neg h]
      exact (List.Perm.cons b ih).trans (List.Perm.swap a b bs)

theorem sortDesc_perm (l : List SimResult) : List.Perm (sortDesc l) l := by
  induction l with
  | nil => exact List.Perm.refl _
  | cons a as ih =>
    exact (insertDesc_perm a (sortDesc as)).trans (List.Perm.cons a ih)

theorem insertDesc_sorted (a : SimResult) (l : List SimResult)
    (hl : List.Pairwise (fun x y => y.score ≤ x.score) l) :
    List.Pairwise (fun x y => y.score ≤ x.score) (insertDesc a l) := by
  induction l with
  | nil => simp [insertDesc]
  | cons b bs ih =>
    rcases List.pairwise_cons.mp hl with ⟨hb, hbs⟩
    by_cases h : b.score ≤ a.score
    · simp only [insertDesc, if_pos h]
      refine List.pairwise_cons.mpr ⟨?_, hl⟩
      intro y hy
      rcases List.mem_cons.mp hy with rfl | hy'
      · exact h
      · exact le_trans (hb y hy') h
    · simp only [insertDesc, if_neg h]
      refine List.pairwise_cons.mpr ⟨?_, ih hbs⟩
      intro y hy
      rcases (mem_insertDesc a y bs).mp hy with rfl | hy'
      · exact le_of_lt (lt_of_not_le h)
      · exact hb y hy'

theorem sortDesc_sorted (l : List SimResult) :
    List.Pairwise (fun x y => y.score ≤ x.score) (sortDesc l) := by
  induction l with
  | nil => simp [sortDesc]
  | cons a as ih => exact insertDesc_sorted a (sortDesc as) ih

theorem sortDesc_length (l : List SimResult) : (sortDesc l).length = l.length :=
  (sortDesc_perm l).length_eq

theorem simResults_length (blocks : List BlockRef) (similarities : List ℚ) :
    (simResults blocks similarities).length = similarities.length := by
  simp [simResults]

theorem mem_simResults {blocks : List BlockRef} {similarities : List ℚ}
    {r : SimResult} (hr : r ∈ simResults blocks similarities) :
    r.index < similarities.length ∧
      r.chunk = (blocks.getD r.index { id := "", content := "" }).content ∧
      similarities.getD r.index 0 = r.score := by
  unfold simResults at hr
  rw [List.mem_map] at hr
  obtain ⟨p, hp, hmk⟩ := hr
  have hget : similarities[p.1]? = some p.2 := by
    rw [← List.mem_enum_iff_getElem?]
    exact hp
  have hlt : p.1 < similarities.length := by
    by_contra hc
    rw [List.getElem?_eq_none (by omega)] at hget
    exact Option.noConfusion hget
  subst hmk
  refine ⟨hlt, rfl, ?_⟩
  rw [List.getD_eq_getElem?_getD, hget]
  rfl

theorem simResults_index_nodup (blocks : List BlockRef) (similarities : List ℚ) :
    ((simResults blocks similarities).map (·.index)).Nodup := by
  unfold simResults
  rw [List.map_map]
  have : ((fun r : SimResult => r.index) ∘ fun p : Nat × ℚ =>
      ({ chunk := (blocks.getD p.1 { id := "", content := "" }).content,
         score := p.2, index := p.1 } : SimResult)) = Prod.fst := rfl
  rw [this, List.enum_map_fst]
  exact List.nodup_range _

theorem nodup_getD_inj {l : List ℚ} (h : l.Nodup) {i j : Nat}
    (hi : i < l.length) (hj : j < l.length) (he : l.getD i 0 = l.getD j 0) :
    i = j := by
  rw [List.getD_eq_getElem?_getD, List.getElem?_eq_getElem hi,
    List.getD_eq_getElem?_getD, List.getElem?_eq_getElem hj] at he
  exact (h.getElem_inj_iff).mp he

/-- Claim C4 (amended): when the worker returns one score per candidate, each
score is zipped onto the block at the same index, the result is sorted in
descending (non-increasing) order — strictly descending whenever the returned
scores are pairwise distinct — and its length is `min topK` the number of
candidates.  With tied scores the order is only non-strict, so "strictly
descending" does not hold unconditionally. -/
theorem claim_C4 (blocks : List BlockRef) (similarities : List ℚ) (topK : Nat)
    (hlen : similarities.length = blocks.length) :
    (∀ r ∈ findSimilarRank blocks similarities topK,
        r.index < blocks.length ∧
        r.chunk = (blocks.getD r.index { id := "", content := "" }).content ∧
        similarities.getD r.index 0 = r.score) ∧
    List.Pairwise (fun a b => b.score ≤ a.score) (findSimilarRank blocks similarities topK) ∧
    (findSimilarRank blocks similarities topK).length = min topK blocks.length ∧
    (similarities.Nodup →
        List.Pairwise (fun a b => b.score < a.score)
          (findSimilarRank blocks similarities topK)) := by
  have hsub : (findSimilarRank blocks similarities topK).Sublist
      (sortDesc (simResults blocks similarities)) := List.take_sublist _ _
  have hmem : ∀ r ∈ findSimilarRank blocks similarities topK,
      r ∈ simResults blocks similarities := by
    intro r hr
    exact (sortDesc_perm _).subset (hsub.subset hr)
  have hfacts : ∀ r ∈ findSimilarRank blocks similarities topK,
      r.index < blocks.length ∧
      r.chunk = (blocks.getD r.index { id := "", content := "" }).content ∧
      similarities.getD r.index 0 = r.score := by
    intro r hr
    obtain ⟨h1, h2, h3⟩ := mem_simResults (hmem r hr)
    exact ⟨hlen ▸ h1, h2, h3⟩
  have hsorted : List.Pairwise (fun a b => b.score ≤ a.score)
      (findSimilarRank blocks similarities topK) :=
    List.Pairwise.sublist hsub (sortDesc_sorted _)
  refine ⟨hfacts, hsorted, ?_, ?_⟩
  · unfold findSimilarRank
    rw [List.length_take, sortDesc_length, simResults_length, hlen]
  · intro hnd
    have hidx : ((findSimilarRank blocks similarities topK).map (·.index)).Nodup := by
      have h1 : ((sortDesc (simResults blocks similarities)).map (·.index)).Nodup :=
        ((sortDesc_perm _).map (·.index)).nodup_iff.mpr
          (simResults_index_nodup blocks similarities)
      exact List.Nodup.sublist (hsub.map (·.index)) h1
    have hpne : List.Pairwise (fun a b : SimResult => a.index ≠ b.index)
        (findSimilarRank blocks similarities topK) :=
      List.pairwise_map.mp hidx
    have hcomb := (List.Pairwise.and_mem.mp hsorted).and hpne
    refine hcomb.imp ?_
    rintro a b ⟨⟨ha, hb, hle⟩, hne⟩
    obtain ⟨ha1, _, ha3⟩ := hfacts a ha
    obtain ⟨hb1, _, hb3⟩ := hfacts b hb
    rcases lt_or_eq_of_le hle with hlt | heq
    · exact hlt
    · exfalso
      apply hne
      exact nodup_getD_inj hnd (by omega) (by omega) (by rw [ha3, hb3, heq])

/-- Counterexample to C4 as stated: with tied scores the result of the
comparator sort is not *strictly* descending. -/
theorem claim_C4_counterexample :
    ¬ List.Pairwise (fun a b => b.score < a.score)
      (findSimilarRank [{ id := "b0", content := "x" }, { id := "b1", content := "y" }]
        [1, 1] 2) := by
  decide

/-- Concrete instance of C4 (the spec's scenario, scores scaled to integers):
inputs ordered `[xyz789, abc123]` with scores `[9, 2]` and `topK = 1` give
exactly the first block at score 9, and distinct scores make the order
strict. -/
theorem claim_C4_witness :
    List.Pairwise (fun a b => b.score < a.score)
      (findSimilarRank [{ id := "xyz789", content := "fiber note" },
        { id := "abc123", content := "hooks note" }] [9, 2] 1) ∧
    findSimilarRank [{ id := "xyz789", content := "fiber note" },
        { id := "abc123", content := "hooks note" }] [9, 2] 1 =
      [{ chunk := "fiber note", score := 9, index := 0 }] :=
  ⟨(claim_C4 [{ id := "xyz789", content := "fiber note" },
      { id := "abc123", content := "hooks note" }] [9, 2] 1 (by decide)).2.2.2 (by decide),
   by decide⟩

/-- The cache-hit test of `getBlockEmbeddings`: an entry exists for the
block's id and its stored hash equals the hash of the current content. -/
def isHit (hash : String → String) (cache : List (String × CachedEmbedding))
    (b : BlockRef) : Bool :=
  match alookup cache b.id with
  | some c => c.contentHash == hash b.content
  | none => false

/-- One run of `getBlockEmbeddings`: the per-block embeddings in input order,
the cache after the run, and the list of `embed` calls issued (each one a
batch of texts). -/
structure EmbRun where
  embeddings : List (List ℚ)
  cache : List (String × CachedEmbedding)
  calls : List (List String)
  deriving DecidableEq, Repr

/-- Fill the `embeddings` array: hits read the (pre-run) cache, misses
consume the freshly computed vectors in order. -/
def fillEmbeddings (hash : String → String) (cache : List (String × CachedEmbedding)) :
    List (List ℚ) → List BlockRef → List (List ℚ)
  | _, [] => []
  | newEmb, b :: bs =>
      match alookup cache b.id with
      | some c =>
          if c.contentHash == hash b.content then
            c.embedding :: fillEmbeddings hash cache newEmb bs
          else newEmb.headD [] :: fillEmbeddings hash cache newEmb.tail bs
      | none => newEmb.headD [] :: fillEmbeddings hash cache newEmb.tail bs

/-- `getBlockEmbeddings` from the source: partition the blocks by the cache
test against the pre-run cache, issue one batched `embed` call for the misses
only (none when there are none), write each computed vector back under the
new content hash, and return one embedding per input block. -/
def getBlockEmbeddings (hash : String → String) (embedFn : List String → List (List ℚ))
    (now : Nat) (cache : List (String × CachedEmbedding)) (blocks : List BlockRef) :
    EmbRun :=
  let misses := blocks.filter (fun b => !(isHit hash cache b))
  let uncachedContents := misses.map (·.content)
  let newEmbeddings := embedFn uncachedContents
  { embeddings := fillEmbeddings hash cache newEmbeddings blocks
    cache := (misses.zip newEmbeddings).foldl
      (fun c p => mapSet c p.1.id
        { contentHash := hash p.1.content, embedding := p.2, timestamp := now }) cache
    calls := if misses = [] then [] else [uncachedContents] }

theorem cacheWrites_other (hash : String → String) (now : Nat) :
    ∀ (pairs : List (BlockRef × List ℚ)) (cache : List (String × CachedEmbedding))
      (id : String), id ∉ pairs.map (·.1.id) →
      alookup (pairs.foldl (fun c p => mapSet c p.1.id
        { contentHash := hash p.1.content, embedding := p.2, timestamp := now }) cache) id =
        alookup cache id := by
  intro pairs
  induction pairs with
  | nil => intro cache id _; rfl
  | cons p rest ih =>
    intro cache id hid
    have h1 : id ∉ rest.map (·.1.id) := fun hc => hid (by simp [hc])
    have h2 : p.1.id ≠ id := fun hc => hid (by simp [hc])
    rw [List.foldl_cons, ih _ id h1, alookup_mapSet, if_neg h2]

theorem cacheWrites_mem (hash : String → String) (now : Nat) :
    ∀ (pairs : List (BlockRef × List ℚ)) (cache : List (String × CachedEmbedding)),
      (pairs.map (·.1.id)).Nodup →
      ∀ p ∈ pairs,
        alookup (pairs.foldl (fun c q => mapSet c q.1.id
          { contentHash := hash q.1.content, embedding := q.2, timestamp := now }) cache)
            p.1.id =
          some { contentHash := hash p.1.content, embedding := p.2, timestamp := now } := by
  intro pairs
  induction pairs with
  | nil => intro cache _ p hp; exact absurd hp (List.not_mem_nil p)
  | cons q rest ih =>
    intro cache hnd p hp
    rw [List.map_cons, List.nodup_cons] at hnd
    rcases List.mem_cons.mp hp with rfl | hp'
    · rw [List.foldl_cons, cacheWrites_other hash now rest _ p.1.id hnd.1,
        alookup_mapSet, if_pos rfl]
    · exact ih _ hnd.2 p hp'

theorem exists_zip_pair {l1 : List BlockRef} :
    ∀ {l2 : List (List ℚ)}, l1.length ≤ l2.length → ∀ {b : BlockRef}, b ∈ l1 →
      ∃ v, (b, v) ∈ l1.zip l2 := by
  induction l1 with
  | nil => intro l2 _ b hb; exact absurd hb (List.not_mem_nil b)
  | cons a as ih =>
    intro l2 hlen b hb
    cases l2 with
    | nil => simp at hlen
    | cons v vs =>
      rcases List.mem_cons.mp hb with rfl | hb'
      · exact ⟨v, by simp⟩
      · obtain ⟨w, hw⟩ := ih (by simpa using hlen) hb'
        exact ⟨w, by simp [hw]⟩

/-- After a run, every input block's id maps to a cache entry whose stored
hash is the hash of the block's (pre-run) content. -/
theorem afterCache_spec (hash : String → String) (embedFn : List String → List (List ℚ))
    (now : Nat) (cache : List (String × CachedEmbedding)) (blocks : List BlockRef)
    (hemb : ∀ l, (embedFn l).length = l.length)
    (hnd : (blocks.map (·.id)).Nodup) :
    ∀ b ∈ blocks, ∃ e,
      alookup (getBlockEmbeddings hash embedFn now cache blocks).cache b.id = some e ∧
        e.contentHash = hash b.content := by
  intro b hb
  have hmiss_sub : ((blocks.filter (fun b => !(isHit hash cache b))).map (·.id)).Sublist
      (blocks.map (·.id)) := (List.filter_sublist blocks).map _
  have hmiss_nd : ((blocks.filter (fun b => !(isHit hash cache b))).map (·.id)).Nodup :=
    List.Nodup.sublist hmiss_sub hnd
  have hzlen : (blocks.filter (fun b => !(isHit hash cache b))).length ≤
      (embedFn ((blocks.filter (fun b => !(isHit hash cache b))).map (·.content))).length := by
    rw [hemb, List.length_map]
  have hfst : ((blocks.filter (fun b => !(isHit hash cache b))).zip
      (embedFn ((blocks.filter (fun b => !(isHit hash cache b))).map (·.content)))).map
        (·.1) = blocks.filter (fun b => !(isHit hash cache b)) :=
    List.map_fst_zip _ _ hzlen
  have hpairs_nd : (((blocks.filter (fun b => !(isHit hash cache b))).zip
      (embedFn ((blocks.filter (fun b => !(isHit hash cache b))).map (·.content)))).map
        (·.1.id)).Nodup := by
    have : (((blocks.filter (fun b => !(isHit hash cache b))).zip
        (embedFn ((blocks.filter (fun b => !(isHit hash cache b))).map (·.content)))).map
          (·.1.id)) = ((blocks.filter (fun b => !(isHit hash cache b))).map (·.id)) := by
      rw [show ((·.1.id) : BlockRef × List ℚ → String) =
        (fun b : BlockRef => b.id) ∘ (·.1) from rfl, ← List.map_map, hfst]
    rw [this]
    exact hmiss_nd
  by_cases hhit : isHit hash cache b
  · have hnotmiss : b.id ∉ ((blocks.filter (fun b => !(isHit hash cache b))).zip
        (embedFn ((blocks.filter (fun b => !(isHit hash cache b))).map (·.content)))).map
          (·.1.id) := by
      intro hc
      rw [show ((·.1.id) : BlockRef × List ℚ → String) =
        (fun b : BlockRef => b.id) ∘ (·.1) from rfl, ← List.map_map, hfst] at hc
      rw [List.mem_map] at hc
      obtain ⟨b', hb', hbid⟩ := hc
      rw [List.mem_filter] at hb'
      have : b' = b := List.inj_on_of_nodup_map hnd hb'.1 hb hbid
      rw [this] at hb'
      rw [hhit] at hb'
      simpa using hb'.2
    have hsame : alookup (getBlockEmbeddings hash embedFn now cache blocks).cache b.id =
        alookup cache b.id := cacheWrites_other hash now _ cache b.id hnotmiss
    unfold isHit at hhit
    cases hc : alookup cache b.id with
    | none => rw [hc] at hhit; exact Bool.noConfusion hhit
    | some c =>
      rw [hc] at hhit
      exact ⟨c, by rw [hsame, hc], beq_iff_eq.mp hhit⟩
  · have hbmiss : b ∈ blocks.filter (fun b => !(isHit hash cache b)) :=
      List.mem_filter.mpr ⟨hb, by simp [hhit]⟩
    obtain ⟨v, hv⟩ := exists_zip_pair hzlen hbmiss
    have := cacheWrites_mem hash now _ cache hpairs_nd (b, v) hv
    exact ⟨_, this, rfl⟩

theorem pairsIds_eq (hash : String → String) (embedFn : List String → List (List ℚ))
    (cache : List (String × CachedEmbedding)) (blocks : List BlockRef)
    (hemb : ∀ l, (embedFn l).length = l.length) :
    ((blocks.filter (fun b => !(isHit hash cache b))).zip
      (embedFn ((blocks.filter (fun b => !(isHit hash cache b))).map (·.content)))).map
        (·.1.id) =
      (blocks.filter (fun b => !(isHit hash cache b))).map (·.id) := by
  have hzlen : (blocks.filter (fun b => !(isHit hash cache b))).length ≤
      (embedFn ((blocks.filter (fun b => !(isHit hash cache b))).map (·.content))).length := by
    rw [hemb, List.length_map]
  rw [show ((·.1.id) : BlockRef × List ℚ → String) =
    (fun b : BlockRef => b.id) ∘ (·.1) from rfl, ← List.map_map, List.map_fst_zip _ _ hzlen]

theorem filter_allFalse {q : BlockRef → Bool} {l : List BlockRef}
    (h : ∀ y ∈ l, q y = false) : l.filter q = [] :=
  List.filter_eq_nil_iff.mpr (fun a ha => by rw [h a ha]; simp)

theorem modifiedMisses (hash : String → String) (cache2 : List (String × CachedEmbedding))
    (b : BlockRef) (c' : String) :
    ∀ blocks : List BlockRef, (blocks.map (·.id)).Nodup → b ∈ blocks →
      (∀ x ∈ blocks, x.id ≠ b.id → isHit hash cache2 x = true) →
      isHit hash cache2 { id := b.id, content := c' } = false →
      (blocks.map (fun x => if x.id = b.id then { id := x.id, content := c' } else x)).filter
          (fun y => !(isHit hash cache2 y)) =
        [{ id := b.id, content := c' }] := by
  intro blocks
  induction blocks with
  | nil => intro _ hb; exact absurd hb (List.not_mem_nil b)
  | cons x xs ih =>
    intro hnd hb hhit hmiss
    rw [List.map_cons, List.nodup_cons] at hnd
    rcases List.mem_cons.mp hb with rfl | hb'
    · rw [List.map_cons, if_pos rfl, List.filter_cons]
      rw [if_pos (by rw [hmiss]; rfl)]
      have htail : (xs.map (fun x => if x.id = b.id then
          ({ id := x.id, content := c' } : BlockRef) else x)).filter
            (fun y => !(isHit hash cache2 y)) = [] := by
        apply filter_allFalse
        intro y hy
        rw [List.mem_map] at hy
        obtain ⟨z, hz, hzy⟩ := hy
        have hzid : z.id ≠ b.id := by
          intro hc
          exact hnd.1 (hc ▸ List.mem_map_of_mem (·.id) hz)
        rw [if_neg hzid] at hzy
        subst hzy
        rw [hhit z (List.mem_cons_of_mem _ hz) hzid]
        rfl
      rw [htail]
    · have hxid : x.id ≠ b.id := by
        intro hc
        exact hnd.1 (hc ▸ List.mem_map_of_mem (·.id) hb')
      rw [List.map_cons, if_neg hxid, List.filter_cons,
        if_neg (by rw [hhit x (List.mem_cons_self x xs) hxid]; simp)]
      exact ih hnd.2 hb' (fun z hz => hhit z (List.mem_cons_of_mem _ hz)) hmiss

/-- Claim C3: `getBlockEmbeddings` partitions the blocks into cache hits
(stored hash equals the hash of the current content) and misses; exactly one
batched `embed` call is issued, covering the miss set only, and none when
there are no misses; hit blocks' cache entries are not rewritten; each write
is for a computed block and stores the new content hash; hence a second run
over unmodified blocks issues no `embed` call, and modifying one block's
content causes exactly one `embed` call covering that content alone.
(Stated for blocks with pairwise-distinct ids, as delivered by the index;
"modified" means the content's hash changes, as the cache compares hashes.) -/
theorem claim_C3 (hash : String → String) (embedFn : List String → List (List ℚ))
    (now now2 : Nat) (cache : List (String × CachedEmbedding)) (blocks : List BlockRef)
    (hemb : ∀ l, (embedFn l).length = l.length)
    (hnd : (blocks.map (·.id)).Nodup) :
    (∀ b ∈ blocks, (b ∈ blocks.filter (fun b => !(isHit hash cache b)) ↔
        ¬ ∃ c, alookup cache b.id = some c ∧ c.contentHash = hash b.content)) ∧
    ((getBlockEmbeddings hash embedFn now cache blocks).calls =
      if blocks.filter (fun b => !(isHit hash cache b)) = [] then []
      else [(blocks.filter (fun b => !(isHit hash cache b))).map (·.content)]) ∧
    (∀ id, id ∉ (blocks.filter (fun b => !(isHit hash cache b))).map (·.id) →
        alookup (getBlockEmbeddings hash embedFn now cache blocks).cache id =
          alookup cache id) ∧
    (∀ b ∈ blocks.filter (fun b => !(isHit hash cache b)),
        ∃ e, alookup (getBlockEmbeddings hash embedFn now cache blocks).cache b.id =
          some e ∧ e.contentHash = hash b.content ∧ e.timestamp = now) ∧
    ((getBlockEmbeddings hash embedFn now2
        (getBlockEmbeddings hash embedFn now cache blocks).cache blocks).calls = []) ∧
    (∀ b ∈ blocks, ∀ c', hash c' ≠ hash b.content →
        (getBlockEmbeddings hash embedFn now2
          (getBlockEmbeddings hash embedFn now cache blocks).cache
          (blocks.map (fun x => if x.id = b.id then { id := x.id, content := c' } else x))).calls
          = [[c']]) := by
  have hafter := afterCache_spec hash embedFn now cache blocks hemb hnd
  have hafterHit : ∀ b ∈ blocks,
      isHit hash (getBlockEmbeddings hash embedFn now cache blocks).cache b = true := by
    intro b hb
    obtain ⟨e, he, hh⟩ := hafter b hb
    unfold isHit
    rw [he]
    exact beq_iff_eq.mpr hh
  refine ⟨?_, rfl, ?_, ?_, ?_, ?_⟩
  · intro b hb
    rw [List.mem_filter]
    unfold isHit
    cases hc : alookup cache b.id with
    | none =>
      simp only [hc, Bool.not_false, and_true, hb, true_and]
      constructor
      · rintro _ ⟨c, hcc, _⟩
        exact Option.noConfusion hcc
      · intro _
        trivial
    | some c =>
      simp only [hc, hb, true_and]
      constructor
      · intro hne
        rintro ⟨c', hcc, hch⟩
        injection hcc with hcc
        subst hcc
        rw [beq_iff_eq.mpr hch] at hne
        simp at hne
      · intro hne
        have : c.contentHash ≠ hash b.content := fun hc' => hne ⟨c, rfl, hc'⟩
        rw [beq_eq_false_iff_ne.mpr this]
        rfl
  · intro id hid
    apply cacheWrites_other
    rw [pairsIds_eq hash embedFn cache blocks hemb]
    exact hid
  · intro b hb
    have hzlen : (blocks.filter (fun b => !(isHit hash cache b))).length ≤
        (embedFn ((blocks.filter (fun b => !(isHit hash cache b))).map (·.content))).length := by
      rw [hemb, List.length_map]
    obtain ⟨v, hv⟩ := exists_zip_pair hzlen hb
    have hpairs_nd : (((blocks.filter (fun b => !(isHit hash cache b))).zip
        (embedFn ((blocks.filter (fun b => !(isHit hash cache b))).map (·.content)))).map
          (·.1.id)).Nodup := by
      rw [pairsIds_eq hash embedFn cache blocks hemb]
      exact List.Nodup.sublist ((List.filter_sublist blocks).map _) hnd
    exact ⟨_, cacheWrites_mem hash now _ cache hpairs_nd (b, v) hv, rfl, rfl⟩
  · have hfil : blocks.filter
        (fun b => !(isHit hash (getBlockEmbeddings hash embedFn now cache blocks).cache b)) =
        [] := by
      apply filter_allFalse
      intro y hy
      rw [hafterHit y hy]
      rfl
    show (if blocks.filter (fun b => !(isHit hash
        (getBlockEmbeddings hash embedFn now cache blocks).cache b)) = [] then []
      else [(blocks.filter (fun b => !(isHit hash
        (getBlockEmbeddings hash embedFn now cache blocks).cache b))).map (·.content)]) = []
    rw [hfil]
    rfl
  · intro b hb c' hc'
    obtain ⟨e, he, hh⟩ := hafter b hb
    have hmiss : isHit hash (getBlockEmbeddings hash embedFn now cache blocks).cache
        { id := b.id, content := c' } = false := by
      unfold isHit
      rw [he]
      exact beq_eq_false_iff_ne.mpr (by rw [hh]; exact fun hcc => hc' hcc.symm)
    have hfil := modifiedMisses hash
      (getBlockEmbeddings hash embedFn now cache blocks).cache b c' blocks hnd hb
      (fun x hx _ => hafterHit x hx) hmiss
    show (if (blocks.map (fun x => if x.id = b.id then
          ({ id := x.id, content := c' } : BlockRef) else x)).filter
        (fun y => !(isHit hash (getBlockEmbeddings hash embedFn now cache blocks).cache y)) =
        [] then []
      else [((blocks.map (fun x => if x.id = b.id then
          ({ id := x.id, content := c' } : BlockRef) else x)).filter
        (fun y => !(isHit hash (getBlockEmbeddings hash embedFn now cache blocks).cache y))).map
          (·.content)]) = [[c']]
    rw [hfil]
    rfl

/-- Concrete instance of C3: after one run computed the embedding of an
uncached block, a second run over the same unmodified block issues no
`embed` call. -/
theorem claim_C3_witness :
    (getBlockEmbeddings (fun s => s) (fun l => l.map (fun _ => ([] : List ℚ))) 1
      (getBlockEmbeddings (fun s => s) (fun l => l.map (fun _ => ([] : List ℚ))) 0 []
        [{ id := "abc123", content := "hooks note" }]).cache
      [{ id := "abc123", content := "hooks note" }]).calls = [] :=
  (claim_C3 (fun s => s) (fun l => l.map (fun _ => ([] : List ℚ))) 0 1 []
    [{ id := "abc123", content := "hooks note" }]
    (fun l => by simp) (by decide)).2.2.2.2.1

end EmbeddingsService

namespace PythonServerManager

open KernelMdx

/-!
### `PythonServerManager` (src/src/services/pythonServerManager.ts)

`fetch` refuses to touch the network unless the process handle is alive and
the readiness flag is set; `start` stores the pending attempt and hands the
same promise to overlapping callers.  Promises are modelled by numeric ids;
the request log of a call records the paths actually fetched.
-/

structure ManagerState where
  running : Bool
  ready : Bool
  deriving DecidableEq, Repr

/-- `fetch(path, options)`: `Server is not running` / `Server is not ready
yet` errors are raised before any network request; the log records the
requests issued. -/
def fetch (st : ManagerState) (path : String) : Except String String × List String :=
  if st.running then
    if st.ready then (Except.ok "response", [path])
    else (Except.error "Server is not ready yet", [])
  else (Except.error "Server is not running", [])

/-- `isReady()` of the manager: `ready && isRunning()`. -/
def isReady (st : ManagerState) : Bool :=
  st.ready && st.running

/-- State of the `EmbeddingsService` wrapper (src/unnamed/part_007): its own
`ready` flag (set by the manager's `ready` event) plus the manager. -/
structure EmbState where
  ready : Bool
  sm : ManagerState
  deriving DecidableEq, Repr

/-- `EmbeddingsService.isReady()`: `this.ready && serverManager.isReady()`. -/
def isReadyES (es : EmbState) : Bool :=
  es.ready && isReady es.sm

/-- `EmbeddingsService.embed`: `ensureReady()` throws before any request when
the service is not ready; otherwise the body delegates to the manager's
`fetch('/embed', …)`. -/
def embed (es : EmbState) (_texts : List String) : Except String Unit × List String :=
  if isReadyES es then
    let r := fetch es.sm "/embed"
    (r.1.map (fun _ => ()), r.2)
  else
    (Except.error "Embeddings service not ready. Server may still be starting up. Please wait a moment and try again.", [])

/-- `EmbeddingsService.findSimilar`: `ensureReady()` first; when ready, the
block-embedding phase issues one `/embed` request when there are misses, the
query is embedded with another `/embed` request, and the scores come from
`/vector_similarity`. -/
def findSimilarNet (es : EmbState) (missCount : Nat) : Except String Unit × List String :=
  if isReadyES es then
    (Except.ok (), (if missCount = 0 then [] else ["/embed"]) ++ ["/embed", "/vector_similarity"])
  else
    (Except.error "Embeddings service not ready. Server may still be starting up. Please wait a moment and try again.", [])

/-- Claim C5: while the supervisor is not Ready (readiness flag unset or the
process not alive), the supervisor's `fetch` and the embedding service's
`embed` and `findSimilar` each raise a descriptive error and issue no
network request. -/
theorem claim_C5 (st : ManagerState) (es : EmbState) (path : String)
    (texts : List String) (missCount : Nat)
    (hst : isReady st = false) (hes : isReady es.sm = false) :
    (∃ e, (fetch st path).1 = Except.error e) ∧ (fetch st path).2 = [] ∧
    (∃ e, (embed es texts).1 = Except.error e) ∧ (embed es texts).2 = [] ∧
    (∃ e, (findSimilarNet es missCount).1 = Except.error e) ∧
    (findSimilarNet es missCount).2 = [] := by
  have hes' : isReadyES es = false := by
    unfold isReadyES
    rw [hes]
    simp
  obtain ⟨running, ready⟩ := st
  unfold isReady at hst
  refine ⟨?_, ?_, ?_, ?_, ?_, ?_⟩
  · cases running with
    | false => exact ⟨"Server is not running", rfl⟩
    | true =>
      cases ready with
      | false => exact ⟨"Server is not ready yet", rfl⟩
      | true => simp at hst
  · cases running with
    | false => rfl
    | true =>
      cases ready with
      | false => rfl
      | true => simp at hst
  · unfold embed
    rw [hes']
    exact ⟨_, rfl⟩
  · unfold embed
    rw [hes']
    rfl
  · unfold findSimilarNet
    rw [hes']
    exact ⟨_, rfl⟩
  · unfold findSimilarNet
    rw [hes']
    rfl

/-- Concrete instance of C5: a running but not-yet-ready supervisor rejects a
request and issues nothing, as does the embedding service built on it. -/
theorem claim_C5_witness :
    (∃ e, (fetch { running := true, ready := false } "/embed").1 = Except.error e) ∧
    (fetch { running := true, ready := false } "/embed").2 = [] ∧
    (∃ e, (embed { ready := true, sm := { running := true, ready := false } } ["q"]).1 =
      Except.error e) ∧
    (embed { ready := true, sm := { running := true, ready := false } } ["q"]).2 = [] ∧
    (∃ e, (findSimilarNet { ready := true, sm := { running := true, ready := false } } 3).1 =
      Except.error e) ∧
    (findSimilarNet { ready := true, sm := { running := true, ready := false } } 3).2 = [] :=
  claim_C5 { running := true, ready := false }
    { ready := true, sm := { running := true, ready := false } } "/embed" ["q"] 3 rfl rfl

/-!
### `start()` mutual exclusion (src/src/services/pythonServerManager.ts 44–64)
-/

structure SupStartState where
  isStarting : Bool
  startPromise : Option Nat
  processAlive : Bool
  deriving DecidableEq, Repr

inductive StartOutcome where
  | joined (p : Nat)
  | alreadyRunning
  | newAttempt (p : Nat)
  deriving DecidableEq, Repr

/-- The synchronous prefix of `start()` as executed atomically between event
loop suspension points: an in-flight attempt hands back the stored promise;
an alive process short-circuits; otherwise the flags are set and a fresh
attempt (promise id `fresh`) begins. -/
def startCall (st : SupStartState) (fresh : Nat) : SupStartState × StartOutcome :=
  match st.isStarting, st.startPromise with
  | true, some p => (st, StartOutcome.joined p)
  | _, _ =>
      if st.processAlive then (st, StartOutcome.alreadyRunning)
      else ({ isStarting := true, startPromise := some fresh,
              processAlive := st.processAlive },
            StartOutcome.newAttempt fresh)

/-- Number of processes spawned by one outcome. -/
def spawnCount : StartOutcome → Nat
  | StartOutcome.newAttempt _ => 1
  | _ => 0

/-- A burst of `start()` calls with no completion event in between. -/
def runStartCalls (st : SupStartState) : List Nat → SupStartState × List StartOutcome
  | [] => (st, [])
  | f :: fs =>
      let r := startCall st f
      let rest := runStartCalls r.1 fs
      (rest.1, r.2 :: rest.2)

theorem startCall_inflight (st : SupStartState) (fresh p : Nat)
    (h1 : st.isStarting = true) (h2 : st.startPromise = some p) :
    startCall st fresh = (st, StartOutcome.joined p) := by
  obtain ⟨is, sp, pa⟩ := st
  simp only at h1 h2
  subst h1
  subst h2
  rfl

theorem runStartCalls_inflight (st : SupStartState) (p : Nat)
    (h1 : st.isStarting = true) (h2 : st.startPromise = some p) :
    ∀ fs, runStartCalls st fs = (st, fs.map (fun _ => StartOutcome.joined p)) := by
  intro fs
  induction fs with
  | nil => rfl
  | cons f fs ih =>
    simp only [runStartCalls, startCall_inflight st f p h1 h2, ih, List.map_cons]

/-- Claim C6: a `start()` arriving while an attempt is in flight spawns no
second process — it leaves the state untouched and receives the very same
pending promise; a fresh attempt stores its promise so that every
overlapping caller joins it; and any burst of `start()` calls without an
intervening completion spawns at most one process. -/
theorem claim_C6 :
    (∀ st fresh p, st.isStarting = true → st.startPromise = some p →
        startCall st fresh = (st, StartOutcome.joined p)) ∧
    (∀ st fresh st' q, startCall st fresh = (st', StartOutcome.newAttempt q) →
        q = fresh ∧ st'.isStarting = true ∧ st'.startPromise = some fresh ∧
        ∀ fs, runStartCalls st' fs = (st', fs.map (fun _ => StartOutcome.joined fresh))) ∧
    (∀ st fs, ((runStartCalls st fs).2.map spawnCount).sum ≤ 1) := by
  refine ⟨startCall_inflight, ?_, ?_⟩
  · intro st fresh st' q h
    obtain ⟨is, sp, pa⟩ := st
    have hbase : is = true → sp = none ∨ is = false ∨ True := fun _ => Or.inr (Or.inr trivial)
    cases is with
    | true =>
      cases sp with
      | some p =>
        rw [startCall_inflight ⟨true, some p, pa⟩ fresh p rfl rfl] at h
        injection h with _ h2
        exact absurd h2 (by simp)
      | none =>
        cases pa with
        | true =>
          have : startCall ⟨true, none, true⟩ fresh = (⟨true, none, true⟩, StartOutcome.alreadyRunning) := rfl
          rw [this] at h
          injection h with _ h2
          exact absurd h2 (by simp)
        | false =>
          have : startCall ⟨true, none, false⟩ fresh =
              (⟨true, some fresh, false⟩, StartOutcome.newAttempt fresh) := rfl
          rw [this] at h
          injection h with h1 h2
          injection h2 with h2
          subst h1
          subst h2
          exact ⟨rfl, rfl, rfl, runStartCalls_inflight _ fresh rfl rfl⟩
    | false =>
      cases pa with
      | true =>
        have : startCall ⟨false, sp, true⟩ fresh = (⟨false, sp, true⟩, StartOutcome.alreadyRunning) := by
          cases sp <;> rfl
        rw [this] at h
        injection h with _ h2
        exact absurd h2 (by simp)
      | false =>
        have : startCall ⟨false, sp, false⟩ fresh =
            (⟨true, some fresh, false⟩, StartOutcome.newAttempt fresh) := by
          cases sp <;> rfl
        rw [this] at h
        injection h with h1 h2
        injection h2 with h2
        subst h1
        subst h2
        exact ⟨rfl, rfl, rfl, runStartCalls_inflight _ fresh rfl rfl⟩
  · intro st fs
    induction fs generalizing st with
    | nil => simp [runStartCalls]
    | cons f fs ih =>
      obtain ⟨is, sp, pa⟩ := st
      cases is with
      | true =>
        cases sp with
        | some p =>
          unfold runStartCalls
          rw [startCall_inflight ⟨true, some p, pa⟩ f p rfl rfl]
          simp only [List.map_cons, List.sum_cons, spawnCount]
          have := ih ⟨true, some p, pa⟩
          omega
        | none =>
          cases pa with
          | true =>
            unfold runStartCalls
            have hsc : startCall ⟨true, none, true⟩ f =
                (⟨true, none, true⟩, StartOutcome.alreadyRunning) := rfl
            rw [hsc]
            simp only [List.map_cons, List.sum_cons, spawnCount]
            have := ih ⟨true, none, true⟩
            omega
          | false =>
            unfold runStartCalls
            have hsc : startCall ⟨true, none, false⟩ f =
                (⟨true, some f, false⟩, StartOutcome.newAttempt f) := rfl
            rw [hsc]
            simp only [List.map_cons, List.sum_cons, spawnCount]
            rw [runStartCalls_inflight ⟨true, some f, false⟩ f rfl rfl fs]
            simp [spawnCount, List.map_map]
      | false =>
        cases pa with
        | true =>
          unfold runStartCalls
          have hsc : startCall ⟨false, sp, true⟩ f =
              (⟨false, sp, true⟩, StartOutcome.alreadyRunning) := by
            cases sp <;> rfl
          rw [hsc]
          simp only [List.map_cons, List.sum_cons, spawnCount]
          have := ih ⟨false, sp, true⟩
          omega
        | false =>
          unfold runStartCalls
          have hsc : startCall ⟨false, sp, false⟩ f =
              (⟨true, some f, false⟩, StartOutcome.newAttempt f) := by
            cases sp <;> rfl
          rw [hsc]
          simp only [List.map_cons, List.sum_cons, spawnCount]
          rw [runStartCalls_inflight ⟨true, some f, false⟩ f rfl rfl fs]
          simp [spawnCount, List.map_map]

/-- Concrete instance of C6: a `start()` call arriving while attempt 7 is in
flight changes nothing and receives exactly the pending promise 7. -/
theorem claim_C6_witness :
    startCall { isStarting := true, startPromise := some 7, processAlive := false } 9 =
      ({ isStarting := true, startPromise := some 7, processAlive := false },
        StartOutcome.joined 7) :=
  claim_C6.1 { isStarting := true, startPromise := some 7, processAlive := false } 9 7 rfl rfl

end PythonServerManager

namespace GenerateId

/-!
### `generateId` — two revisions

`BlockParser.generateId` (src/unnamed/part_007 lines 420–431, identical to
the first-revision `BlockManager.generateId`) draws six characters from the
fixed alphabet `a–z0–9`, retrying while the candidate collides with a present
id.  The second-revision `BlockManager.generateId`
(src/src/blockManager.ts lines 145–151) instead takes
`Math.random().toString(36).substring(2, 8)`: `toString(36)` prints `"0."`
followed by the base-36 digit expansion of the draw (no digits at all for the
draw `0`, and a short expansion whenever it terminates early — e.g. the draw
`0.5` prints `"0.i"`), and `substring(2, 8)` keeps at most six digits.
Randomness is modelled by the stream of draws; the do-while loop returns the
first candidate not present in the index.
-/

def idAlphabet : List Char := "abcdefghijklmnopqrstuvwxyz0123456789".data

/-- One candidate of the alphabet-based `generateId`: the six drawn indices
mapped through `chars[Math.floor(Math.random() * chars.length)]`. -/
def candidateOf (draw : List (Fin 36)) : String :=
  String.mk (draw.map (fun i => idAlphabet.getD i.val ' '))

/-- The do-while retry loop of `BlockParser.generateId` over a stream of
draws (`none` only if the finite modelled stream runs out). -/
def generateId (takenIds : List String) : List (List (Fin 36)) → Option String
  | [] => none
  | d :: ds =>
      let c := candidateOf d
      if c ∈ takenIds then generateId takenIds ds else some c

/-- The JS digit characters for radix 36. -/
def digits36 : List Char := "0123456789abcdefghijklmnopqrstuvwxyz".data

/-- One candidate of the second-revision `BlockManager.generateId`:
`substring(2, 8)` of `"0." ++ digit expansion` keeps at most the first six
digits of the expansion. -/
def candidate2Of (digits : List (Fin 36)) : String :=
  String.mk ((digits.take 6).map (fun i => digits36.getD i.val ' '))

/-- The do-while retry loop of the second-revision `BlockManager.generateId`. -/
def generateId2 (takenIds : List String) : List (List (Fin 36)) → Option String
  | [] => none
  | d :: ds =>
      let c := candidate2Of d
      if c ∈ takenIds then generateId2 takenIds ds else some c

theorem idAlphabet_getD_mem : ∀ i : Fin 36, idAlphabet.getD i.val ' ' ∈ idAlphabet := by
  decide

theorem digits36_getD_mem : ∀ i : Fin 36, digits36.getD i.val ' ' ∈ digits36 := by
  decide

/-- Claim C9 (amended): the alphabet-based `generateId` (BlockParser and the
first-revision BlockManager) returns a string of exactly six characters from
`a–z0–9` that is not an existing id; the second-revision
`BlockManager.generateId` also avoids existing ids and draws from the base-36
digits, but only guarantees *at most* six characters — `Math.random() = 0.5`
yields `"0.i".substring(2, 8) = "i"`, a 1-character id. -/
theorem claim_C9 (takenIds : List String) (draws : List (List (Fin 36)))
    (hdraw : ∀ d ∈ draws, d.length = 6) :
    (∀ id, generateId takenIds draws = some id →
        id.length = 6 ∧ (∀ c ∈ id.data, c ∈ idAlphabet) ∧ id ∉ takenIds) ∧
    (∀ id, generateId2 takenIds draws = some id →
        id.length ≤ 6 ∧ (∀ c ∈ id.data, c ∈ digits36) ∧ id ∉ takenIds) := by
  induction draws with
  | nil =>
    exact ⟨fun id h => Option.noConfusion h, fun id h => Option.noConfusion h⟩
  | cons d ds ih =>
    have hd6 : d.length = 6 := hdraw d (List.mem_cons_self d ds)
    have hds : ∀ e ∈ ds, e.length = 6 := fun e he => hdraw e (List.mem_cons_of_mem _ he)
    obtain ⟨ih1, ih2⟩ := ih hds
    constructor
    · intro id h
      unfold generateId at h
      by_cases hc : candidateOf d ∈ takenIds
      · rw [if_pos hc] at h
        exact ih1 id h
      · rw [if_neg hc] at h
        injection h with h
        subst h
        refine ⟨?_, ?_, hc⟩
        · show (String.mk (d.map (fun i => idAlphabet.getD i.val ' '))).length = 6
          simp [String.length, hd6]
        · intro c hcmem
          rw [show (candidateOf d).data = d.map (fun i => idAlphabet.getD i.val ' ')
            from rfl] at hcmem
          rw [List.mem_map] at hcmem
          obtain ⟨i, _, hi⟩ := hcmem
          exact hi ▸ idAlphabet_getD_mem i
    · intro id h
      unfold generateId2 at h
      by_cases hc : candidate2Of d ∈ takenIds
      · rw [if_pos hc] at h
        exact ih2 id h
      · rw [if_neg hc] at h
        injection h with h
        subst h
        refine ⟨?_, ?_, hc⟩
        · show (String.mk ((d.take 6).map (fun i => digits36.getD i.val ' '))).length ≤ 6
          simp only [String.length, List.length_map, List.length_take]
          omega
        · intro c hcmem
          rw [show (candidate2Of d).data = (d.take 6).map (fun i => digits36.getD i.val ' ')
            from rfl] at hcmem
          rw [List.mem_map] at hcmem
          obtain ⟨i, _, hi⟩ := hcmem
          exact hi ▸ digits36_getD_mem i

/-- Counterexample to C9 as stated: for the draw `0.5` (base-36 expansion one
digit, `i`), the second-revision `generateId` returns the 1-character id
`"i"`, not a 6-character string. -/
theorem claim_C9_counterexample :
    generateId2 [] [[(18 : Fin 36)]] = some "i" ∧ ("i" : String).length ≠ 6 := by
  constructor
  · decide
  · decide

/-- Concrete instance of C9: with the first draw colliding with an existing
id, the alphabet-based `generateId` retries and returns a fresh 6-character
id. -/
theorem claim_C9_witness :
    generateId ["abcdef"] [[0, 1, 2, 3, 4, 5], [1, 1, 1, 1, 1, 1]] = some "bbbbbb" ∧
    ("bbbbbb" : String).length = 6 ∧
    (∀ c ∈ ("bbbbbb" : String).data, c ∈ idAlphabet) ∧
    "bbbbbb" ∉ ["abcdef"] := by
  have h := (claim_C9 ["abcdef"] [[0, 1, 2, 3, 4, 5], [1, 1, 1, 1, 1, 1]]
    (by decide)).1 "bbbbbb" (by decide)
  exact ⟨by decide, h.1, h.2.1, h.2.2⟩

end GenerateId

namespace ContextService

open KernelMdx BlockParser EmbeddingsService

/-!
### `ContextService.gatherContext` (src/kernel-web/src/services/ContextService.ts)

Five tiers assembled with one `includedBlockIds` set: (1) always-include
files and (2) the current content carry no block ids; (3) blocks referenced
in the current content via `/(?<!\]\s*)@([a-zA-Z0-9_]+)\b/g`; (4) semantic
results over the blocks not already included; (5) the most recent blocks not
already included (`slice(-maxBlocks)`).  The filesystem reads, the worker
scores, and the embedding readiness flag are parameters.
-/

structure Fragment where
  text : String
  blockId : Option String
  deriving DecidableEq, Repr

/-- The negative lookbehind `(?<!\]\s*)`: blocked exactly when the first
non-whitespace character before position `i` is a `]`. -/
def lookbehindBlocked (text : List Char) : Nat → Bool
  | 0 => false
  | k + 1 =>
      let c := text.getD k ' '
      if isWsChar c then lookbehindBlocked text k else c == ']'

/-- Match `/(?<!\]\s*)@([a-zA-Z0-9_]+)\b/` anchored at position `i`; the `\b`
holds automatically at the end of the maximal identifier run. -/
def matchRefAt (text : List Char) (i : Nat) : Option (String × Nat) :=
  match text.get? i with
  | some '@' =>
      if lookbehindBlocked text i then none
      else
        let n := idRun (text.drop (i + 1))
        if n = 0 then none
        else some (String.mk ((text.drop (i + 1)).take n), 1 + n)
  | _ => none

/-- The `exec` loop over the reference regex (fuel-bounded as for the block
scan; every step advances by at least one position). -/
def scanRefs (text : List Char) : Nat → Nat → List String
  | 0, _ => []
  | fuel + 1, l =>
      if l < text.length then
        match matchRefAt text l with
        | some (id, len) => id :: scanRefs text fuel (l + len)
        | none => scanRefs text fuel (l + 1)
      else []

def refIds (text : List Char) : List String :=
  scanRefs text (text.length + 1) 0

/-- The loop body of `getReferencedBlocks`: emit each referenced id once,
only when it resolves in the index, and add it to the included set. -/
def refsLoop (st : ParserState) : List String → List String → List Fragment × List String
  | [], included => ([], included)
  | id :: rest, included =>
      if id ∈ included then refsLoop st rest included
      else
        match getBlock st id with
        | some b =>
            let r := refsLoop st rest (included ++ [id])
            ({ text := "\n// Referenced block @" ++ id ++ "\n" ++ String.mk b.content,
               blockId := some id } :: r.1, r.2)
        | none => refsLoop st rest included

/-- `getReferencedBlocks`. -/
def getReferencedBlocks (st : ParserState) (content : List Char)
    (included : List String) : List Fragment × List String :=
  refsLoop st (refIds content) included

/-- `getSemanticBlocks`: semantic search over all blocks not already
included; each result is resolved back through its index and added to the
included set. -/
def getSemanticBlocks (st : ParserState) (scoresFn : List String → List ℚ)
    (included : List String) (maxResults : Nat) : List Fragment × List String :=
  let candidates := ((getAllBlocks st).filter (fun b => !(decide (b.id ∈ included)))).map
      (fun b => ({ id := b.id, content := String.mk b.content } : BlockRef))
  if candidates = [] then ([], included)
  else
    let results := findSimilarRank candidates (scoresFn (candidates.map (·.content))) maxResults
    (results.map (fun r =>
        { text := "\n// Related block @" ++
            (candidates.getD r.index { id := "", content := "" }).id ++ "\n" ++
            (candidates.getD r.index { id := "", content := "" }).content,
          blockId := some (candidates.getD r.index { id := "", content := "" }).id }),
     included ++ results.map (fun r => (candidates.getD r.index { id := "", content := "" }).id))

/-- JS `slice(-m)`; `slice(-0)` is `slice(0)`, the whole array. -/
def recentSlice {α : Type} (l : List α) (m : Nat) : List α :=
  if m = 0 then l else l.drop (l.length - m)

/-- `getRecentBlocks`: the last `maxBlocks` not-yet-included blocks, as
`(id, rendered line)` entries that are joined into one fragment. -/
def getRecentBlocks (st : ParserState) (included : List String) (maxBlocks : Nat) :
    List (String × String) :=
  (recentSlice ((getAllBlocks st).filter (fun b => !(decide (b.id ∈ included)))) maxBlocks).map
    (fun b => (b.id, "@" ++ b.id ++ ": " ++ String.mk b.content))

/-- Tier 3 as invoked by `gatherContext`: referenced blocks of the current
content when one is supplied, starting from an empty included set. -/
def tier3Of (st : ParserState) (current : Option (String × List Char)) :
    List Fragment × List String :=
  match current with
  | some cur => getReferencedBlocks st cur.2 []
  | none => ([], [])

/-- The guard of tier 4: `embeddingsService.isReady() && query?.trim()`. -/
def doSemanticOf (query : Option String) (embedReady : Bool) : Bool :=
  embedReady && (match query with
    | some q => !(trimChars q.data).isEmpty
    | none => false)

/-- The tier-2 fragment for the current file, carrying no block id. -/
def tier2Of (current : Option (String × List Char)) : List Fragment :=
  match current with
  | some cur => [{ text := "\n// Current file: " ++ cur.1, blockId := none }]
  | none => []

/-- The three id-carrying tiers of `gatherContext`, sharing one included
set: referenced blocks from the current content, semantic results (when the
embedding service is ready and the query is non-blank), recent blocks. -/
def gatherTiers (st : ParserState) (current : Option (String × List Char))
    (query : Option String) (embedReady : Bool) (scoresFn : List String → List ℚ)
    (maxSemanticResults maxRecentBlocks : Nat) :
    List Fragment × List Fragment × List (String × String) :=
  let t3 := tier3Of st current
  let t4 := if doSemanticOf query embedReady then
              getSemanticBlocks st scoresFn t3.2 maxSemanticResults
            else ([], t3.2)
  let t5 := getRecentBlocks st t4.2 maxRecentBlocks
  (t3.1, t4.1, t5)

/-- `gatherContext`: tiers 1–2 (no block ids) and the three id-carrying
tiers joined into the final ordered fragment list. -/
def gatherContext (st : ParserState) (alwaysParts : List (String × String))
    (current : Option (String × List Char)) (query : Option String)
    (embedReady : Bool) (scoresFn : List String → List ℚ)
    (maxSemanticResults maxRecentBlocks : Nat) : List Fragment :=
  let t := gatherTiers st current query embedReady scoresFn maxSemanticResults maxRecentBlocks
  (alwaysParts.map (fun p => { text := "// " ++ p.1 ++ "\n" ++ p.2, blockId := none })) ++
  tier2Of current ++
  t.1 ++
  (if t.2.1.isEmpty then []
   else { text := "\n// Semantically related blocks", blockId := none } :: t.2.1) ++
  (if t.2.2.isEmpty then []
   else [{ text := "\n// Recent blocks\n" ++ String.intercalate "\n\n" (t.2.2.map (·.2)),
           blockId := none }])

theorem filterMap_blockId_none {l : List Fragment} (h : ∀ fr ∈ l, fr.blockId = none) :
    l.filterMap (·.blockId) = [] := by
  induction l with
  | nil => rfl
  | cons a as ih =>
    rw [List.filterMap_cons, h a (List.mem_cons_self a as)]
    exact ih (fun fr hfr => h fr (List.mem_cons_of_mem _ hfr))

theorem filterMap_blockId_map_some {β : Type} (l : List β) (t g : β → String) :
    ((l.map (fun b => ({ text := t b, blockId := some (g b) } : Fragment))).filterMap
      (·.blockId)) = l.map g := by
  induction l with
  | nil => rfl
  | cons a as ih =>
    rw [List.map_cons, List.filterMap_cons]
    simp only
    rw [ih, List.map_cons]

theorem refsLoop_spec (st : ParserState) :
    ∀ ids included : List String, included.Nodup →
      (refsLoop st ids included).2 =
        included ++ (refsLoop st ids included).1.filterMap (·.blockId) ∧
      ((refsLoop st ids included).2).Nodup := by
  intro ids
  induction ids with
  | nil =>
    intro included h
    exact ⟨by simp [refsLoop], h⟩
  | cons id rest ih =>
    intro included hnd
    by_cases hmem : id ∈ included
    · simp only [refsLoop, if_pos hmem]
      exact ih included hnd
    · simp only [refsLoop, if_neg hmem]
      cases hb : getBlock st id with
      | none => exact ih included hnd
      | some b =>
        have hnd' : (included ++ [id]).Nodup := by
          rw [List.nodup_append]
          refine ⟨hnd, List.nodup_singleton id, ?_⟩
          intro a ha hc
          rw [List.mem_singleton] at hc
          subst hc
          exact hmem ha
        obtain ⟨ih1, ih2⟩ := ih (included ++ [id]) hnd'
        refine ⟨?_, ih2⟩
        simp only [List.filterMap_cons]
        rw [ih1, List.append_assoc]
        rfl

theorem getAllBlocks_ids_nodup {st : ParserState}
    (hw1 : (st.blockMap.map (·.1)).Nodup)
    (hw2 : ∀ e ∈ st.blockMap, e.2.id = e.1) :
    ((getAllBlocks st).map (·.id)).Nodup := by
  unfold getAllBlocks
  rw [List.map_map]
  have : st.blockMap.map ((fun b : PBlock => b.id) ∘ (·.2)) = st.blockMap.map (·.1) :=
    List.map_congr_left (fun e he => hw2 e he)
  rw [this]
  exact hw1

theorem nodup_getD_inj_str {l : List String} (h : l.Nodup) {i j : Nat}
    (hi : i < l.length) (hj : j < l.length) (he : l.getD i "" = l.getD j "") :
    i = j := by
  rw [List.getD_eq_getElem?_getD, List.getElem?_eq_getElem hi,
    List.getD_eq_getElem?_getD, List.getElem?_eq_getElem hj] at he
  exact (h.getElem_inj_iff).mp he

theorem getSemanticBlocks_spec (st : ParserState) (scoresFn : List String → List ℚ)
    (included : List String) (maxResults : Nat)
    (hw1 : (st.blockMap.map (·.1)).Nodup)
    (hw2 : ∀ e ∈ st.blockMap, e.2.id = e.1)
    (hscores : ∀ l, (scoresFn l).length = l.length)
    (hnd : included.Nodup) :
    (getSemanticBlocks st scoresFn included maxResults).2 =
      included ++
        (getSemanticBlocks st scoresFn included maxResults).1.filterMap (·.blockId) ∧
    ((getSemanticBlocks st scoresFn included maxResults).2).Nodup := by
  have hall := getAllBlocks_ids_nodup hw1 hw2
  unfold getSemanticBlocks
  by_cases hempty : ((getAllBlocks st).filter (fun b => !(decide (b.id ∈ included)))).map
      (fun b => ({ id := b.id, content := String.mk b.content } : BlockRef)) = []
  · rw [if_pos hempty]
    exact ⟨by simp, hnd⟩
  · rw [if_neg hempty]
    simp only
    set candidates := ((getAllBlocks st).filter (fun b => !(decide (b.id ∈ included)))).map
      (fun b => ({ id := b.id, content := String.mk b.content } : BlockRef)) with hcand
    set results := findSimilarRank candidates
      (scoresFn (candidates.map (·.content))) maxResults with hres
    have hcids : candidates.map (·.id) =
        ((getAllBlocks st).filter (fun b => !(decide (b.id ∈ included)))).map (·.id) := by
      rw [hcand, List.map_map]
      rfl
    have hcnd : (candidates.map (·.id)).Nodup := by
      rw [hcids]
      exact List.Nodup.sublist ((List.filter_sublist _).map _) hall
    have hcnot : ∀ c ∈ candidates, c.id ∉ included := by
      intro c hc
      rw [hcand, List.mem_map] at hc
      obtain ⟨b, hbf, hbc⟩ := hc
      rw [List.mem_filter] at hbf
      have : b.id ∉ included := by
        have := hbf.2
        simp only [Bool.not_eq_true'] at this
        exact of_decide_eq_false this
      rw [← hbc]
      exact this
    have hslen : (scoresFn (candidates.map (·.content))).length = candidates.length := by
      rw [hscores, List.length_map]
    have hsub : results.Sublist (sortDesc (simResults candidates
        (scoresFn (candidates.map (·.content))))) := List.take_sublist _ _
    have hmemres : ∀ r ∈ results, r ∈ simResults candidates
        (scoresFn (candidates.map (·.content))) := by
      intro r hr
      exact (sortDesc_perm _).subset (hsub.subset hr)
    have hidxlt : ∀ r ∈ results, r.index < candidates.length := by
      intro r hr
      have := (mem_simResults (hmemres r hr)).1
      omega
    have hidxnd : (results.map (·.index)).Nodup := by
      have h1 : ((sortDesc (simResults candidates
          (scoresFn (candidates.map (·.content))))).map (·.index)).Nodup :=
        ((sortDesc_perm _).map (·.index)).nodup_iff.mpr (simResults_index_nodup _ _)
      exact List.Nodup.sublist (hsub.map (·.index)) h1
    have hresnd : results.Nodup := List.Nodup.of_map _ hidxnd
    have hmapD : ∀ i, i < candidates.length →
        (candidates.map (·.id)).getD i "" =
          (candidates.getD i { id := "", content := "" }).id := by
      intro i hI
      rw [List.getD_eq_getElem?_getD,
        List.getElem?_eq_getElem (show i < (candidates.map (·.id)).length by
          rw [List.length_map]; exact hI),
        List.getD_eq_getElem?_getD, List.getElem?_eq_getElem hI]
      simp only [Option.getD_some]
      exact List.getElem_map _
    have hemit_nd : (results.map (fun r =>
        (candidates.getD r.index { id := "", content := "" }).id)).Nodup := by
      apply List.Nodup.map_on ?_ hresnd
      intro r1 hr1 r2 hr2 heq
      have h1 := hidxlt r1 hr1
      have h2 := hidxlt r2 hr2
      have hieq : r1.index = r2.index := by
        apply nodup_getD_inj_str hcnd (by rw [List.length_map]; exact h1)
          (by rw [List.length_map]; exact h2)
        rw [hmapD r1.index h1, hmapD r2.index h2]
        exact heq
      exact List.inj_on_of_nodup_map hidxnd hr1 hr2 hieq
    have hemit_notin : ∀ x ∈ results.map (fun r =>
        (candidates.getD r.index { id := "", content := "" }).id), x ∉ included := by
      intro x hx
      rw [List.mem_map] at hx
      obtain ⟨r, hr, hrx⟩ := hx
      have hlt := hidxlt r hr
      rw [List.getD_eq_getElem?_getD, List.getElem?_eq_getElem hlt] at hrx
      simp only [Option.getD_some] at hrx
      rw [← hrx]
      exact hcnot _ (List.getElem_mem hlt)
    constructor
    · rw [filterMap_blockId_map_some]
    · rw [List.nodup_append]
      refine ⟨hnd, hemit_nd, ?_⟩
      intro a ha hc
      exact hemit_notin a hc ha

theorem recentSlice_sublist {α : Type} (l : List α) (m : Nat) :
    (recentSlice l m).Sublist l := by
  unfold recentSlice
  split
  · exact List.Sublist.refl l
  · exact List.drop_sublist _ _

theorem getRecentBlocks_spec (st : ParserState) (included : List String) (maxBlocks : Nat)
    (hw1 : (st.blockMap.map (·.1)).Nodup)
    (hw2 : ∀ e ∈ st.blockMap, e.2.id = e.1) :
    ((getRecentBlocks st included maxBlocks).map (·.1)).Nodup ∧
    ∀ p ∈ getRecentBlocks st included maxBlocks, p.1 ∉ included := by
  have hall := getAllBlocks_ids_nodup hw1 hw2
  unfold getRecentBlocks
  constructor
  · rw [List.map_map]
    have : ((recentSlice ((getAllBlocks st).filter
        (fun b => !(decide (b.id ∈ included)))) maxBlocks).map
        ((·.1) ∘ (fun b : PBlock => (b.id, "@" ++ b.id ++ ": " ++ String.mk b.content)))) =
        ((recentSlice ((getAllBlocks st).filter
          (fun b => !(decide (b.id ∈ included)))) maxBlocks).map (·.id)) := rfl
    rw [this]
    exact List.Nodup.sublist
      (((recentSlice_sublist _ _).trans (List.filter_sublist _)).map _) hall
  · intro p hp
    rw [List.mem_map] at hp
    obtain ⟨b, hb, hbp⟩ := hp
    have hbf := (recentSlice_sublist _ _).subset hb
    rw [List.mem_filter] at hbf
    have : b.id ∉ included := by
      have := hbf.2
      simp only [Bool.not_eq_true'] at this
      exact of_decide_eq_false this
    rw [← hbp]
    exact this

theorem tiers_core (st : ParserState) (scoresFn : List String → List ℚ)
    (t3p : List Fragment × List String) (doSem : Bool) (m1 m2 : Nat)
    (hw1 : (st.blockMap.map (·.1)).Nodup)
    (hw2 : ∀ e ∈ st.blockMap, e.2.id = e.1)
    (hscores : ∀ l, (scoresFn l).length = l.length)
    (h3a : t3p.2 = t3p.1.filterMap (·.blockId)) (h3b : t3p.2.Nodup) :
    (t3p.1.filterMap (·.blockId) ++
      ((if doSem then getSemanticBlocks st scoresFn t3p.2 m1 else ([], t3p.2)).1.filterMap
          (·.blockId) ++
        (getRecentBlocks st
          (if doSem then getSemanticBlocks st scoresFn t3p.2 m1 else ([], t3p.2)).2
          m2).map (·.1))).Nodup := by
  have h4 : (if doSem then getSemanticBlocks st scoresFn t3p.2 m1 else ([], t3p.2)).2 =
      t3p.2 ++ (if doSem then getSemanticBlocks st scoresFn t3p.2 m1
        else ([], t3p.2)).1.filterMap (·.blockId) ∧
      ((if doSem then getSemanticBlocks st scoresFn t3p.2 m1 else ([], t3p.2)).2).Nodup := by
    cases doSem with
    | true =>
      simp only [if_pos]
      exact getSemanticBlocks_spec st scoresFn t3p.2 m1 hw1 hw2 hscores h3b
    | false =>
      simp only [Bool.false_eq_true, if_neg]
      exact ⟨by simp, h3b⟩
  obtain ⟨h4a, h4b⟩ := h4
  obtain ⟨h5a, h5b⟩ := getRecentBlocks_spec st
    (if doSem then getSemanticBlocks st scoresFn t3p.2 m1 else ([], t3p.2)).2 m2 hw1 hw2
  rw [← List.append_assoc, List.nodup_append]
  refine ⟨?_, h5a, ?_⟩
  · rw [← h3a, ← h4a]
    exact h4b
  · intro a ha hc
    rw [List.mem_map] at hc
    obtain ⟨p, hp, hpa⟩ := hc
    apply h5b p hp
    rw [h4a, hpa]
    rw [← h3a] at ha
    exact ha

theorem filterMap_if_header (s : String) (l : List Fragment) :
    ((if l.isEmpty then [] else ({ text := s, blockId := none } : Fragment) :: l).filterMap
      (·.blockId)) = l.filterMap (·.blockId) := by
  split
  · next h =>
    rw [List.isEmpty_iff.mp h]
  · rw [List.filterMap_cons]

theorem filterMap_if_tail {β : Type} (c : List β) (s : String) :
    ((if c.isEmpty then []
      else [({ text := s, blockId := none } : Fragment)]).filterMap (·.blockId)) = [] := by
  split
  · rfl
  · rfl

/-- Claim C8: for every input to context assembly, no block id appears twice
across the five tiers: tiers 1–2 carry no block ids, a block emitted as a
tier-3 referenced block is excluded from the tier-4 semantic candidates, and
blocks emitted in tiers 3 or 4 are excluded from the tier-5 recent-blocks
tail — so the id list of the three id-carrying tiers, and hence of the whole
assembled output, is duplicate-free.  (Index well-formedness: map keys are
unique and each block records its own key; the worker returns one score per
candidate.) -/
theorem claim_C8 (st : ParserState) (alwaysParts : List (String × String))
    (current : Option (String × List Char)) (query : Option String)
    (embedReady : Bool) (scoresFn : List String → List ℚ)
    (maxSemanticResults maxRecentBlocks : Nat)
    (hw1 : (st.blockMap.map (·.1)).Nodup)
    (hw2 : ∀ e ∈ st.blockMap, e.2.id = e.1)
    (hscores : ∀ l, (scoresFn l).length = l.length) :
    ((gatherTiers st current query embedReady scoresFn
        maxSemanticResults maxRecentBlocks).1.filterMap (·.blockId) ++
      ((gatherTiers st current query embedReady scoresFn
          maxSemanticResults maxRecentBlocks).2.1.filterMap (·.blockId) ++
        (gatherTiers st current query embedReady scoresFn
          maxSemanticResults maxRecentBlocks).2.2.map (·.1))).Nodup ∧
    ((gatherContext st alwaysParts current query embedReady scoresFn
        maxSemanticResults maxRecentBlocks).filterMap (·.blockId)).Nodup := by
  have h3 : (tier3Of st current).2 =
      (tier3Of st current).1.filterMap (·.blockId) ∧
      ((tier3Of st current).2).Nodup := by
    cases current with
    | none => exact ⟨rfl, List.nodup_nil⟩
    | some cur =>
      obtain ⟨ha, hb⟩ := refsLoop_spec st (refIds cur.2) [] List.nodup_nil
      constructor
      · show (refsLoop st (refIds cur.2) []).2 =
          (refsLoop st (refIds cur.2) []).1.filterMap (·.blockId)
        simpa using ha
      · exact hb
  have hcore := tiers_core st scoresFn (tier3Of st current)
    (doSemanticOf query embedReady) maxSemanticResults maxRecentBlocks
    hw1 hw2 hscores h3.1 h3.2
  have hmain : ((gatherTiers st current query embedReady scoresFn
      maxSemanticResults maxRecentBlocks).1.filterMap (·.blockId) ++
      ((gatherTiers st current query embedReady scoresFn
          maxSemanticResults maxRecentBlocks).2.1.filterMap (·.blockId) ++
        (gatherTiers st current query embedReady scoresFn
          maxSemanticResults maxRecentBlocks).2.2.map (·.1))).Nodup := hcore
  refine ⟨hmain, ?_⟩
  have heq : (gatherContext st alwaysParts current query embedReady scoresFn
      maxSemanticResults maxRecentBlocks).filterMap (·.blockId) =
      (gatherTiers st current query embedReady scoresFn
        maxSemanticResults maxRecentBlocks).1.filterMap (·.blockId) ++
      (gatherTiers st current query embedReady scoresFn
        maxSemanticResults maxRecentBlocks).2.1.filterMap (·.blockId) := by
    unfold gatherContext
    simp only [List.filterMap_append]
    rw [filterMap_blockId_none (l := alwaysParts.map
        (fun p => { text := "// " ++ p.1 ++ "\n" ++ p.2, blockId := none })) (by
      intro fr hfr
      rw [List.mem_map] at hfr
      obtain ⟨p, _, hp⟩ := hfr
      rw [← hp])]
    rw [filterMap_blockId_none (l := tier2Of current) (by
      intro fr hfr
      cases current with
      | none => exact absurd hfr (List.not_mem_nil fr)
      | some cur =>
        simp only [tier2Of, List.mem_singleton] at hfr
        rw [hfr])]
    rw [filterMap_if_header, filterMap_if_tail]
    simp
  rw [heq]
  have hsub : ((gatherTiers st current query embedReady scoresFn
      maxSemanticResults maxRecentBlocks).1.filterMap (·.blockId) ++
      (gatherTiers st current query embedReady scoresFn
        maxSemanticResults maxRecentBlocks).2.1.filterMap (·.blockId)).Sublist
      (((gatherTiers st current query embedReady scoresFn
        maxSemanticResults maxRecentBlocks).1.filterMap (·.blockId) ++
      (gatherTiers st current query embedReady scoresFn
        maxSemanticResults maxRecentBlocks).2.1.filterMap (·.blockId)) ++
      (gatherTiers st current query embedReady scoresFn
        maxSemanticResults maxRecentBlocks).2.2.map (·.1)) :=
    List.sublist_append_left _ _
  rw [← List.append_assoc] at hmain
  exact List.Nodup.sublist hsub hmain

/-- Concrete instance of C8: a populated index, a current file referencing
one block, a live semantic query and a recent-blocks tail produce an
assembled fragment list in which no block id appears twice. -/
theorem claim_C8_witness :
    ((gatherContext
        { blockMap := [("abc123", { id := "abc123", content := "hooks note".data,
                                    file := "A", line := 0 }),
                       ("xyz789", { id := "xyz789", content := "fiber note".data,
                                    file := "A", line := 1 })]
          fileIndex := [("A", ["abc123", "xyz789"])] }
        [("kernel_instructions.mdx", "inst")]
        (some ("cur.mdx", "see @abc123".data)) (some "fiber") true
        (fun l => l.map (fun _ => (1 : ℚ))) 50 20).filterMap (·.blockId)).Nodup :=
  (claim_C8
    { blockMap := [("abc123", { id := "abc123", content := "hooks note".data,
                                file := "A", line := 0 }),
                   ("xyz789", { id := "xyz789", content := "fiber note".data,
                                file := "A", line := 1 })]
      fileIndex := [("A", ["abc123", "xyz789"])] }
    [("kernel_instructions.mdx", "inst")]
    (some ("cur.mdx", "see @abc123".data)) (some "fiber") true
    (fun l => l.map (fun _ => (1 : ℚ))) 50 20
    (by decide) (by decide) (fun l => by simp)).2

end ContextService
